import Mathlib

/-!
# NeoMaze core verification

Shallow embedding of the NeoMaze maze-game core (src/utils/maze.ts,
src/types.ts, src/constants.ts and the game logic of src/App.tsx) and
proofs of the specification claims about it.

Conventions:
* JS `number` values holding continuous coordinates are modelled as `ℚ`
  (the code only adds, subtracts, multiplies, compares and floors them).
* Grid cells are addressed by integer pairs `(x, z) : ℤ × ℤ`, exactly as
  the code addresses `grid[z][x]`.
* A grid is a `List (List Cell)`; `grid[z][x]` lookups are modelled as an
  `Option Cell` (`none` plays the part of JavaScript `undefined`).
* `Math.random()` / shuffle calls are modelled by explicit oracle streams
  passed as arguments; theorems quantify over every oracle.
-/

namespace NeoMaze

/-- `CellType` from src/types.ts. -/
inductive Cell where
  | WALL
  | PATH
  | START
  | END
deriving DecidableEq, Repr

/-- `GamePhase` from src/types.ts. -/
inductive GamePhase where
  | MENU
  | MEMORIZE
  | PLAYING
  | MAP_PEEK
  | GAME_OVER
  | LEVEL_COMPLETE
  | VICTORY
deriving DecidableEq, Repr

/-- `ObstacleType` from src/types.ts. -/
inductive ObstacleType where
  | STATIC_SPIKE
  | PATROL_ENEMY
deriving DecidableEq, Repr

/-- The patrol axis `'x' | 'z'` from src/types.ts. -/
inductive Axis where
  | x
  | z
deriving DecidableEq, Repr

/-- `PLAYER_RADIUS` from src/constants.ts. -/
def PLAYER_RADIUS : ℚ := 3 / 10

/-- `PLAYER_SPEED` from src/constants.ts. -/
def PLAYER_SPEED : ℚ := 4

/-- `PULVERISE_RADIUS` from src/constants.ts. -/
def PULVERISE_RADIUS : ℚ := 7 / 2

/-- A grid as produced by the generator: rows indexed by `z`, cells by `x`. -/
abbrev Grid := List (List Cell)

/-- The JS lookup `grid[z][x]`, as an `Option`: `none` when either index is
out of range (JS `undefined`). -/
def cellAt (g : Grid) (x z : ℤ) : Option Cell :=
  if 0 ≤ x ∧ 0 ≤ z then (g[z.toNat]?).bind fun row => row[x.toNat]? else none

/-- `grid.length` (the height used by the code). -/
def gridH (g : Grid) : ℕ := g.length

/-- `grid[0].length` (the width used by the code; rows are uniform in every
generated grid).  For an empty grid the code would throw before reading
this; callers below only evaluate it behind a `0 ≤ z < g.length` guard,
mirroring the JS short-circuit evaluation. -/
def gridW (g : Grid) : ℕ := (g.headD []).length

/-- The in-bounds test `cz >= 0 && cz < map.length && cx >= 0 && cx < map[0].length`
shared by `checkWallCollision` and `findShortestPath`. -/
def inBounds (g : Grid) (x z : ℤ) : Prop :=
  0 ≤ z ∧ z < (gridH g : ℤ) ∧ 0 ≤ x ∧ x < (gridW g : ℤ)

instance (g : Grid) (x z : ℤ) : Decidable (inBounds g x z) := by
  unfold inBounds; infer_instance

/-- The integer range `[a, b)` scanned by a JS `for (let i = a; i < b; i++)` loop. -/
def intRange (a b : ℤ) : List ℤ := (List.range (b - a).toNat).map fun (i : ℕ) => a + (i : ℤ)

theorem mem_intRange {a b i : ℤ} : i ∈ intRange a b ↔ a ≤ i ∧ i < b := by
  constructor
  · intro h
    obtain ⟨n, hn, rfl⟩ := List.mem_map.mp h
    have := List.mem_range.mp hn
    omega
  · intro h
    exact List.mem_map.mpr ⟨(i - a).toNat, List.mem_range.mpr (by omega), by omega⟩

/-! ## CollisionResolver: `checkWallCollision` (src/App.tsx lines 287-314) -/

/-- `checkWallCollision(x, z, map)` from src/App.tsx.  The scanned index
ranges and the axis-aligned box overlap test are transcribed literally. -/
def checkWallCollision (x z : ℚ) (map : Grid) : Bool :=
  let pMinX := x - PLAYER_RADIUS
  let pMaxX := x + PLAYER_RADIUS
  let pMinZ := z - PLAYER_RADIUS
  let pMaxZ := z + PLAYER_RADIUS
  let startX := ⌊pMinX - 1/2⌋
  let endX := ⌈pMaxX + 1/2⌉
  let startZ := ⌊pMinZ - 1/2⌋
  let endZ := ⌈pMaxZ + 1/2⌉
  (intRange startZ endZ).any fun cz =>
    (intRange startX endX).any fun cx =>
      decide (inBounds map cx cz) &&
        (cellAt map cx cz == some Cell.WALL) &&
        decide (pMinX < (cx : ℚ) + 1/2) && decide (pMaxX > (cx : ℚ) - 1/2) &&
        decide (pMinZ < (cz : ℚ) + 1/2) && decide (pMaxZ > (cz : ℚ) - 1/2)

/-- C4: for every grid and every continuous position `(x, z)`,
`checkWallCollision x z grid` returns `true` if and only if some in-bounds
WALL cell `(cx, cz)` satisfies `|x - cx| < 0.5 + PLAYER_RADIUS` and
`|z - cz| < 0.5 + PLAYER_RADIUS` (the footprint's axis-aligned bounding box
overlaps the cell's unit square centred at `(cx, cz)`).  In particular it is
true for a position exactly centred on a WALL cell (take `cx = x`, `cz = z`)
and false for a position centred on a PATH cell with no wall within the
footprint radius (the right-hand side is then unsatisfiable). -/
theorem checkWallCollision_iff (x z : ℚ) (map : Grid) :
    checkWallCollision x z map = true ↔
      ∃ cx cz : ℤ, inBounds map cx cz ∧ cellAt map cx cz = some Cell.WALL ∧
        |x - (cx : ℚ)| < 1/2 + PLAYER_RADIUS ∧ |z - (cz : ℚ)| < 1/2 + PLAYER_RADIUS := by
  simp only [checkWallCollision, List.any_eq_true, Bool.and_eq_true, decide_eq_true_eq,
    beq_iff_eq, mem_intRange]
  constructor
  · rintro ⟨cz, -, cx, -, ⟨⟨⟨⟨⟨hb, hc⟩, h1⟩, h2⟩, h3⟩, h4⟩⟩
    refine ⟨cx, cz, hb, hc, ?_, ?_⟩
    · rw [abs_lt]; constructor <;> linarith
    · rw [abs_lt]; constructor <;> linarith
  · rintro ⟨cx, cz, hb, hc, hx, hz⟩
    rw [abs_lt] at hx hz
    have fx : (⌊x - PLAYER_RADIUS - 1/2⌋ : ℚ) ≤ x - PLAYER_RADIUS - 1/2 := Int.floor_le _
    have fz : (⌊z - PLAYER_RADIUS - 1/2⌋ : ℚ) ≤ z - PLAYER_RADIUS - 1/2 := Int.floor_le _
    have cxu : (x + PLAYER_RADIUS + 1/2 : ℚ) ≤ (⌈x + PLAYER_RADIUS + 1/2⌉ : ℚ) := Int.le_ceil _
    have czu : (z + PLAYER_RADIUS + 1/2 : ℚ) ≤ (⌈z + PLAYER_RADIUS + 1/2⌉ : ℚ) := Int.le_ceil _
    refine ⟨cz, ⟨?_, ?_⟩, cx, ⟨?_, ?_⟩,
      ⟨⟨⟨⟨⟨hb, hc⟩, by linarith⟩, by linarith⟩, by linarith⟩, by linarith⟩⟩
    · have : (⌊z - PLAYER_RADIUS - 1/2⌋ : ℚ) < (cz : ℚ) := by linarith
      exact_mod_cast this.le
    · have : (cz : ℚ) < (⌈z + PLAYER_RADIUS + 1/2⌉ : ℚ) := by linarith
      exact_mod_cast this
    · have : (⌊x - PLAYER_RADIUS - 1/2⌋ : ℚ) < (cx : ℚ) := by linarith
      exact_mod_cast this.le
    · have : (cx : ℚ) < (⌈x + PLAYER_RADIUS + 1/2⌉ : ℚ) := by linarith
      exact_mod_cast this

/-! ## Axis-separated movement resolution (src/App.tsx lines 211-219) -/

/-- The per-tick movement resolution performed inside `update`'s
`setPlayerPos` callback (src/App.tsx lines 211-219): the X move is tested
and committed from the current Z, then the Z move is tested from the
possibly-updated X. -/
def resolveMove (grid : Grid) (px pz dx dz : ℚ) : ℚ × ℚ :=
  let nextX := px + dx
  let nextZ := pz + dz
  let newX := if checkWallCollision nextX pz grid then px else nextX
  let newZ := if checkWallCollision newX nextZ grid then pz else nextZ
  (newX, newZ)

/-- C5: the resolved position is computed axis-separately — `x` becomes
`px + dx` exactly when `checkWallCollision (px + dx) pz grid` is false
(else it stays `px`), and `z` then becomes `pz + dz` exactly when
`checkWallCollision newX (pz + dz) grid` is false, using the
possibly-updated `newX`; consequently, if the X move is open and `dx ≠ 0`,
the player makes nonzero X progress even when the combined diagonal target
is blocked. -/
theorem resolveMove_axis_separated (grid : Grid) (px pz dx dz : ℚ) :
    (resolveMove grid px pz dx dz).1 =
      (if checkWallCollision (px + dx) pz grid then px else px + dx) ∧
    (resolveMove grid px pz dx dz).2 =
      (if checkWallCollision (resolveMove grid px pz dx dz).1 (pz + dz) grid then pz
        else pz + dz) ∧
    (checkWallCollision (px + dx) pz grid = false → dx ≠ 0 →
      (resolveMove grid px pz dx dz).1 ≠ px ∧
        (resolveMove grid px pz dx dz).1 = px + dx) := by
  refine ⟨rfl, rfl, fun hopen hdx => ?_⟩
  have h1 : (resolveMove grid px pz dx dz).1 = px + dx := by
    simp only [resolveMove, hopen, Bool.false_eq_true, if_false]
  refine ⟨?_, h1⟩
  rw [h1]
  intro h
  exact hdx (by linarith)

unseal Rat.add Rat.mul Rat.sub Rat.inv in
/-- Witness for C5: in a one-cell-wide corridor, a diagonal move whose Z leg
is blocked still advances along the open X axis. -/
theorem resolveMove_axis_separated_witness :
    checkWallCollision (0 + 1/2) 1
        [[Cell.WALL, Cell.WALL, Cell.WALL],
         [Cell.PATH, Cell.PATH, Cell.WALL],
         [Cell.WALL, Cell.WALL, Cell.WALL]] = false ∧
    (1/2 : ℚ) ≠ 0 ∧
    checkWallCollision (0 + 1/2) (1 + 1/2)
        [[Cell.WALL, Cell.WALL, Cell.WALL],
         [Cell.PATH, Cell.PATH, Cell.WALL],
         [Cell.WALL, Cell.WALL, Cell.WALL]] = true ∧
    (resolveMove
        [[Cell.WALL, Cell.WALL, Cell.WALL],
         [Cell.PATH, Cell.PATH, Cell.WALL],
         [Cell.WALL, Cell.WALL, Cell.WALL]] 0 1 (1/2) (1/2)).1 ≠ 0 :=
  ⟨by decide, by decide, by decide,
    ((resolveMove_axis_separated
        [[Cell.WALL, Cell.WALL, Cell.WALL],
         [Cell.PATH, Cell.PATH, Cell.WALL],
         [Cell.WALL, Cell.WALL, Cell.WALL]] 0 1 (1/2) (1/2)).2.2
      (by decide) (by decide)).1⟩

/-! ## Game session state: hits, invulnerability, pulverise
    (src/App.tsx, `update` lines 222-255, `handleHit` lines 316-328,
    `handlePulverise` lines 330-357) -/

/-- An obstacle as created by `startLevel` (src/App.tsx lines 119-128).  The
optional TS fields `axis`, `speed`, `range`, `initialPos` are always
assigned at creation and dereferenced with `!` in the game loop, so they
are modelled as total fields; the never-assigned optional `direction`
field is omitted. -/
structure Obstacle where
  id : String
  x : ℚ
  z : ℚ
  type : ObstacleType
  axis : Axis
  speed : ℚ
  range : ℚ
  initialPos : ℚ × ℚ
deriving DecidableEq, Repr

/-- The live position of an obstacle at time `t` (src/App.tsx lines 230-237
and 337-344): patrol enemies oscillate sinusoidally around `initialPos`
along their axis, static spikes stay at `initialPos`.  `sn` abstracts
`Math.sin`; every theorem quantifies over it. -/
def livePos (sn : ℚ → ℚ) (t : ℚ) (o : Obstacle) : ℚ × ℚ :=
  if o.type = ObstacleType.PATROL_ENEMY then
    let move := sn (t * o.speed) * o.range
    match o.axis with
    | Axis.x => (o.initialPos.1 + move, o.initialPos.2)
    | Axis.z => (o.initialPos.1, o.initialPos.2 + move)
  else o.initialPos

/-- Squared Euclidean distance.  The code computes
`Math.sqrt(dx^2 + dz^2)` and compares it with a nonnegative radius `r`;
since `Real.sqrt d < r ↔ d < r^2` for `0 ≤ r`, all radius comparisons are
modelled on squares. -/
def dist2 (a b : ℚ × ℚ) : ℚ := (a.1 - b.1)^2 + (a.2 - b.2)^2

/-- Squared hit radius: the code triggers a hit when
`dist < PLAYER_RADIUS + 0.35`. -/
def hitRadius2 : ℚ := (PLAYER_RADIUS + 35/100)^2

/-- The session state touched by hit handling and the pulverise ability.
`invulnMs` models the pending `setTimeout` that clears
`invulnerableRef.current` 1500 ms after a hit: the ref is set exactly when
`0 < invulnMs`, and the passage of `dt` milliseconds subtracts `dt`. -/
structure GameSt where
  lives : ℤ
  phase : GamePhase
  invulnMs : ℚ
  obstacles : List Obstacle
  canPulverise : Bool
  pulveriseCooldown : ℕ
deriving DecidableEq, Repr

/-- `handleHit` (src/App.tsx lines 316-328): set the invulnerability ref
(and schedule its clearing 1500 ms later), decrement lives, and enter
GAME_OVER when the decremented lives are ≤ 0. -/
def handleHit (st : GameSt) : GameSt :=
  { st with
    invulnMs := 1500
    lives := st.lives - 1
    phase := if st.lives - 1 ≤ 0 then GamePhase.GAME_OVER else st.phase }

/-- One pass of the obstacle `forEach` of `update` (src/App.tsx lines
225-255): recompute each obstacle's live position, accumulate whether any
obstacle is within pulverise range, trigger a hit for each obstacle within
hit range while not invulnerable (the ref updates synchronously, so a
first hit suppresses hits from later obstacles of the same tick), then set
`canPulverise` from the accumulated proximity and the current cooldown.
`obsStep` is the body run for one obstacle, `obstacleTick` the whole pass. -/
def obsStep (sn : ℚ → ℚ) (t : ℚ) (player : ℚ × ℚ) (acc : Bool × GameSt)
    (o : Obstacle) : Bool × GameSt :=
  let pos := livePos sn t o
  let nearby := acc.1 || decide (dist2 pos player < PULVERISE_RADIUS^2)
  let st' :=
    if dist2 pos player < hitRadius2 ∧ ¬(0 < acc.2.invulnMs) then handleHit acc.2
    else acc.2
  (nearby, st')

def obstacleTick (sn : ℚ → ℚ) (t : ℚ) (player : ℚ × ℚ) (st : GameSt) : GameSt :=
  let res := st.obstacles.foldl (obsStep sn t player) (false, st)
  { res.2 with canPulverise := res.1 && decide (st.pulveriseCooldown = 0) }

/-- `dt` milliseconds pass: the pending invulnerability-clearing timeout
gets `dt` closer to firing. -/
def elapse (st : GameSt) (dt : ℚ) : GameSt := { st with invulnMs := st.invulnMs - dt }

/-- A sequence of simulation ticks: each tick lets `(dt, t, player)`
milliseconds pass and then runs the obstacle pass at animation time `t`
with the player at `player`. -/
def runTicks (sn : ℚ → ℚ) : List (ℚ × ℚ × (ℚ × ℚ)) → GameSt → GameSt
  | [], st => st
  | (dt, t, player) :: rest, st => runTicks sn rest (obstacleTick sn t player (elapse st dt))

/-- `handlePulverise` (src/App.tsx lines 330-357): no-op unless the ability
is enabled; otherwise remove every obstacle whose live position (recomputed
at trigger time) is within `PULVERISE_RADIUS` of the player, set the
cooldown to 3 and disable the ability. -/
def handlePulverise (sn : ℚ → ℚ) (t : ℚ) (player : ℚ × ℚ) (st : GameSt) : GameSt :=
  if st.canPulverise = false then st
  else
    { st with
      obstacles := st.obstacles.filter
        fun o => decide (PULVERISE_RADIUS^2 < dist2 (livePos sn t o) player)
      pulveriseCooldown := 3
      canPulverise := false }

/-- While invulnerable, one obstacle step leaves the game state untouched. -/
theorem obsStep_snd_of_invuln (sn : ℚ → ℚ) (t : ℚ) (player : ℚ × ℚ)
    (acc : Bool × GameSt) (o : Obstacle) (h : 0 < acc.2.invulnMs) :
    (obsStep sn t player acc o).2 = acc.2 := by
  simp only [obsStep]
  rw [if_neg]
  intro hc
  exact hc.2 h

/-- While invulnerable, the whole obstacle fold leaves the game state
untouched (only the proximity flag may change). -/
theorem foldl_obsStep_of_invuln (sn : ℚ → ℚ) (t : ℚ) (player : ℚ × ℚ) :
    ∀ (l : List Obstacle) (b : Bool) (s : GameSt), 0 < s.invulnMs →
      (l.foldl (obsStep sn t player) (b, s)).2 = s := by
  intro l
  induction l with
  | nil => intro b s _; rfl
  | cons o l ih =>
    intro b s hs
    have hstep : (obsStep sn t player (b, s) o).2 = s := obsStep_snd_of_invuln _ _ _ _ _ hs
    calc (List.foldl (obsStep sn t player) (b, s) (o :: l)).2
        = (List.foldl (obsStep sn t player) (obsStep sn t player (b, s) o) l).2 := rfl
      _ = s := by
          rw [show obsStep sn t player (b, s) o = ((obsStep sn t player (b, s) o).1, s) from
            Prod.ext rfl hstep]
          exact ih _ s hs

/-- From a vulnerable state, the first in-range obstacle of the pass fires
`handleHit` and the freshly-set invulnerability suppresses every later hit
of the same pass. -/
theorem foldl_obsStep_hit (sn : ℚ → ℚ) (t : ℚ) (player : ℚ × ℚ) :
    ∀ (l : List Obstacle) (b : Bool) (s : GameSt), ¬(0 < s.invulnMs) →
      (∃ o ∈ l, dist2 (livePos sn t o) player < hitRadius2) →
      (l.foldl (obsStep sn t player) (b, s)).2 = handleHit s := by
  intro l
  induction l with
  | nil => rintro b s _ ⟨o, ho, -⟩; exact absurd ho (List.not_mem_nil o)
  | cons o l ih =>
    rintro b s hs hex
    by_cases hc : dist2 (livePos sn t o) player < hitRadius2
    · have hstep : (obsStep sn t player (b, s) o).2 = handleHit s := by
        simp only [obsStep]
        rw [if_pos ⟨hc, hs⟩]
      have hinv : (0 : ℚ) < (handleHit s).invulnMs := by
        simp only [handleHit]; norm_num
      calc (List.foldl (obsStep sn t player) (b, s) (o :: l)).2
          = (List.foldl (obsStep sn t player) (obsStep sn t player (b, s) o) l).2 := rfl
        _ = handleHit s := by
            rw [show obsStep sn t player (b, s) o =
              ((obsStep sn t player (b, s) o).1, handleHit s) from Prod.ext rfl hstep]
            exact foldl_obsStep_of_invuln sn t player l _ _ hinv
    · have hstep : (obsStep sn t player (b, s) o).2 = s := by
        simp only [obsStep]
        rw [if_neg]
        intro h
        exact hc h.1
      obtain ⟨o', ho', hdist⟩ := hex
      rcases List.mem_cons.mp ho' with rfl | ho'
      · exact absurd hdist hc
      · calc (List.foldl (obsStep sn t player) (b, s) (o :: l)).2
            = (List.foldl (obsStep sn t player) (obsStep sn t player (b, s) o) l).2 := rfl
          _ = handleHit s := by
              rw [show obsStep sn t player (b, s) o =
                ((obsStep sn t player (b, s) o).1, s) from Prod.ext rfl hstep]
              exact ih _ s hs ⟨o', ho', hdist⟩

/-- C6: during PLAYING, a triggered hit decrements lives by exactly one and
starts the fixed 1500 ms invulnerability window; while the window is
active obstacle contacts trigger no hit (in particular additional
overlapping obstacles of the same tick are ignored, which the fold lemmas
above encode); lives reaching zero flips the phase to GAME_OVER; and over
any sequence of ticks whose total elapsed time stays below the remaining
window, lives never change. -/
theorem hit_invulnerability (sn : ℚ → ℚ) :
    (∀ (t : ℚ) (player : ℚ × ℚ) (st : GameSt), ¬(0 < st.invulnMs) →
      st.phase = GamePhase.PLAYING →
      (∃ o ∈ st.obstacles, dist2 (livePos sn t o) player < hitRadius2) →
      (obstacleTick sn t player st).lives = st.lives - 1 ∧
      (obstacleTick sn t player st).invulnMs = 1500 ∧
      (st.lives - 1 ≤ 0 → (obstacleTick sn t player st).phase = GamePhase.GAME_OVER) ∧
      (0 < st.lives - 1 → (obstacleTick sn t player st).phase = GamePhase.PLAYING)) ∧
    (∀ (t : ℚ) (player : ℚ × ℚ) (st : GameSt), 0 < st.invulnMs →
      (obstacleTick sn t player st).lives = st.lives ∧
      (obstacleTick sn t player st).invulnMs = st.invulnMs ∧
      (obstacleTick sn t player st).phase = st.phase) ∧
    (∀ (ticks : List (ℚ × ℚ × (ℚ × ℚ))) (st : GameSt),
      (∀ tk ∈ ticks, 0 ≤ tk.1) →
      (ticks.map Prod.fst).sum < st.invulnMs →
      (runTicks sn ticks st).lives = st.lives) := by
  refine ⟨?_, ?_, ?_⟩
  · intro t player st hs hph hex
    have h2 : (st.obstacles.foldl (obsStep sn t player) (false, st)).2 = handleHit st :=
      foldl_obsStep_hit sn t player _ _ _ hs hex
    refine ⟨?_, ?_, fun hl => ?_, fun hl => ?_⟩
    · simp only [obstacleTick]; rw [h2]; rfl
    · simp only [obstacleTick]; rw [h2]; rfl
    · simp only [obstacleTick]; rw [h2]
      show (handleHit st).phase = GamePhase.GAME_OVER
      simp only [handleHit]
      rw [if_pos hl]
    · simp only [obstacleTick]; rw [h2]
      show (handleHit st).phase = GamePhase.PLAYING
      simp only [handleHit]
      rw [if_neg (by omega), hph]
  · intro t player st hs
    have h2 : (st.obstacles.foldl (obsStep sn t player) (false, st)).2 = st :=
      foldl_obsStep_of_invuln sn t player _ _ _ hs
    refine ⟨?_, ?_, ?_⟩ <;> (simp only [obstacleTick]; rw [h2])
  · intro ticks
    induction ticks with
    | nil => intro st _ _; rfl
    | cons tk rest ih =>
      intro st hnn hsum
      obtain ⟨dt, t, player⟩ := tk
      have hdt : 0 ≤ dt := hnn _ (List.mem_cons_self _ _)
      have hrest : 0 ≤ (rest.map Prod.fst).sum :=
        List.sum_nonneg (by
          intro q hq
          obtain ⟨tk', htk', rfl⟩ := List.mem_map.mp hq
          exact hnn _ (List.mem_cons_of_mem _ htk'))
      have hsum' : dt + (rest.map Prod.fst).sum < st.invulnMs := by
        simpa [List.map_cons, List.sum_cons] using hsum
      have hel : (0 : ℚ) < (elapse st dt).invulnMs := by
        simp only [elapse]
        linarith
      have htick := foldl_obsStep_of_invuln sn t player (elapse st dt).obstacles false
        (elapse st dt) hel
      have hlives : (obstacleTick sn t player (elapse st dt)).lives = st.lives := by
        simp only [obstacleTick]; rw [htick]; rfl
      have hinv : (obstacleTick sn t player (elapse st dt)).invulnMs = st.invulnMs - dt := by
        simp only [obstacleTick]; rw [htick]; rfl
      calc (runTicks sn ((dt, t, player) :: rest) st).lives
          = (runTicks sn rest (obstacleTick sn t player (elapse st dt))).lives := rfl
        _ = (obstacleTick sn t player (elapse st dt)).lives := by
            refine ih _ (fun tk' htk' => hnn _ (List.mem_cons_of_mem _ htk')) ?_
            rw [hinv]
            linarith
        _ = st.lives := hlives

/-- A one-life PLAYING state standing on a static spike, for the C6 witness. -/
def hitWitnessSt : GameSt where
  lives := 1
  phase := GamePhase.PLAYING
  invulnMs := 0
  obstacles := [⟨"obs-0", 1, 1, ObstacleType.STATIC_SPIKE, Axis.x, 2, 3/2, (1, 1)⟩]
  canPulverise := false
  pulveriseCooldown := 0

unseal Rat.add Rat.mul Rat.sub Rat.inv in
/-- Witness for C6: with one life left and a spike underfoot, the tick
decrements lives to zero, starts the 1500 ms window and enters GAME_OVER. -/
theorem hit_invulnerability_witness :
    (obstacleTick (fun _ => 0) 0 (1, 1) hitWitnessSt).lives = hitWitnessSt.lives - 1 ∧
    (obstacleTick (fun _ => 0) 0 (1, 1) hitWitnessSt).invulnMs = 1500 ∧
    (obstacleTick (fun _ => 0) 0 (1, 1) hitWitnessSt).phase = GamePhase.GAME_OVER := by
  have h := (hit_invulnerability (fun _ => 0)).1 0 (1, 1) hitWitnessSt
    (by decide) rfl (by decide)
  exact ⟨h.1, h.2.1, h.2.2.1 (by decide)⟩

/-- C7: when the area-clear ability fires (`canPulverise = true`), exactly
the obstacles whose live position — recomputed at trigger time `t` from
`initialPos`, `axis`, `speed` and `range` for patrol obstacles — lies
within `PULVERISE_RADIUS` of the player are removed; every obstacle
outside that radius stays, nothing new appears, the cooldown becomes the
nonzero value 3 with the ability disabled, and while the cooldown is
nonzero the per-tick recomputation keeps the ability disabled. -/
theorem handlePulverise_spec (sn : ℚ → ℚ) (t : ℚ) (player : ℚ × ℚ) (st : GameSt)
    (hcan : st.canPulverise = true) :
    (∀ o ∈ st.obstacles, dist2 (livePos sn t o) player ≤ PULVERISE_RADIUS^2 →
      o ∉ (handlePulverise sn t player st).obstacles) ∧
    (∀ o ∈ st.obstacles, PULVERISE_RADIUS^2 < dist2 (livePos sn t o) player →
      o ∈ (handlePulverise sn t player st).obstacles) ∧
    (∀ o ∈ (handlePulverise sn t player st).obstacles, o ∈ st.obstacles) ∧
    (handlePulverise sn t player st).pulveriseCooldown = 3 ∧
    (handlePulverise sn t player st).canPulverise = false ∧
    (∀ (t' : ℚ) (player' : ℚ × ℚ) (st' : GameSt), 0 < st'.pulveriseCooldown →
      (obstacleTick sn t' player' st').canPulverise = false) := by
  have hne : ¬(st.canPulverise = false) := by rw [hcan]; intro h; cases h
  have hres : handlePulverise sn t player st =
      { st with
        obstacles := st.obstacles.filter
          fun o => decide (PULVERISE_RADIUS^2 < dist2 (livePos sn t o) player)
        pulveriseCooldown := 3
        canPulverise := false } := by
    simp only [handlePulverise]
    rw [if_neg hne]
  refine ⟨?_, ?_, ?_, ?_, ?_, ?_⟩
  · intro o ho hle hmem
    rw [hres] at hmem
    have := (List.mem_filter.mp hmem).2
    rw [decide_eq_true_eq] at this
    linarith
  · intro o ho hgt
    rw [hres]
    exact List.mem_filter.mpr ⟨ho, by rw [decide_eq_true_eq]; exact hgt⟩
  · intro o hmem
    rw [hres] at hmem
    exact (List.mem_filter.mp hmem).1
  · rw [hres]
  · rw [hres]
  · intro t' player' st' hcd
    have hcd0 : ¬(st'.pulveriseCooldown = 0) := by omega
    simp only [obstacleTick]
    rw [decide_eq_false hcd0, Bool.and_false]

/-- Obstacles for the C7 witness: a static spike at the player and a far
patrol enemy. -/
def pulveriseWitnessSt : GameSt where
  lives := 3
  phase := GamePhase.PLAYING
  invulnMs := 0
  obstacles :=
    [⟨"obs-0", 1, 1, ObstacleType.STATIC_SPIKE, Axis.x, 2, 3/2, (1, 1)⟩,
     ⟨"obs-1", 9, 9, ObstacleType.PATROL_ENEMY, Axis.x, 2, 3/2, (9, 9)⟩]
  canPulverise := true
  pulveriseCooldown := 0

unseal Rat.add Rat.mul Rat.sub Rat.inv in
/-- Witness for C7: firing the ability removes the in-range spike, keeps
the out-of-range patrol enemy, and leaves a nonzero cooldown with the
ability disabled. -/
theorem handlePulverise_spec_witness :
    (⟨"obs-0", 1, 1, ObstacleType.STATIC_SPIKE, Axis.x, 2, 3/2, (1, 1)⟩ : Obstacle) ∉
      (handlePulverise (fun _ => 0) 0 (1, 1) pulveriseWitnessSt).obstacles ∧
    (⟨"obs-1", 9, 9, ObstacleType.PATROL_ENEMY, Axis.x, 2, 3/2, (9, 9)⟩ : Obstacle) ∈
      (handlePulverise (fun _ => 0) 0 (1, 1) pulveriseWitnessSt).obstacles ∧
    (handlePulverise (fun _ => 0) 0 (1, 1) pulveriseWitnessSt).pulveriseCooldown = 3 ∧
    (handlePulverise (fun _ => 0) 0 (1, 1) pulveriseWitnessSt).canPulverise = false := by
  have h := handlePulverise_spec (fun _ => 0) 0 (1, 1) pulveriseWitnessSt rfl
  exact ⟨h.1 _ (by decide) (by decide), h.2.1 _ (by decide) (by decide), h.2.2.2.1,
    h.2.2.2.2.1⟩

/-! ## SpotSampler: `findEmptySpots` (src/utils/maze.ts lines 62-81)

The source declares `const attempts = 0;` and tests `attempts < 1000` in
the loop guard, but never increments `attempts`, so the guard can never
trip: the loop leaves only through `spots.length >= count`.  The
transcription below keeps the constant `attempts` variable exactly as
written.  The loop is driven by a fuel parameter: a `none` result means
the loop has not returned within `fuel` iterations (for every fuel). -/

/-- The `while` loop of `findEmptySpots`.  `rnd n` is the value of the
`n`-th `Math.random()` call; each iteration consumes two (first `x`, then
`z`). -/
def findSpotsLoop (g : Grid) (count : ℕ) (excludeNearStart : Bool) (rnd : ℕ → ℚ) :
    ℕ → ℕ → List (ℤ × ℤ) → ℕ → Option (List (ℤ × ℤ))
  | fuel, k, spots, attempts =>
    if ¬(spots.length < count ∧ attempts < 1000) then some spots
    else
      match fuel with
      | 0 => none
      | fuel + 1 =>
        let x : ℤ := Rat.floor (rnd k * (gridW g : ℚ))
        let z : ℤ := Rat.floor (rnd (k + 1) * (gridH g : ℚ))
        if cellAt g x z = some Cell.PATH then
          if excludeNearStart ∧ x < 4 ∧ z < 4 then
            findSpotsLoop g count excludeNearStart rnd fuel (k + 2) spots attempts
          else if spots.any fun s => decide (s.1 = x) && decide (s.2 = z) then
            findSpotsLoop g count excludeNearStart rnd fuel (k + 2) spots attempts
          else
            findSpotsLoop g count excludeNearStart rnd fuel (k + 2) (spots ++ [(x, z)]) attempts
        else
          findSpotsLoop g count excludeNearStart rnd fuel (k + 2) spots attempts

/-- `findEmptySpots(grid, count, excludeNearStart)`.  The `grid[0].length`
read throws a TypeError on an empty grid (modelled as `.error`); otherwise
the loop runs: `.ok (some spots)` is a return, `.ok none` means the loop
is still running after `fuel` iterations. -/
def findEmptySpots (g : Grid) (count : ℕ) (excludeNearStart : Bool) (rnd : ℕ → ℚ)
    (fuel : ℕ) : Except String (Option (List (ℤ × ℤ))) :=
  if g.isEmpty then Except.error "TypeError: grid[0] is undefined"
  else Except.ok (findSpotsLoop g count excludeNearStart rnd fuel 0 [] 0)

/-- The sampling-loop invariant: distinct spots, all PATH, and (when
requested) outside the 4×4 start block. -/
def SpotsInv (g : Grid) (excludeNearStart : Bool) (spots : List (ℤ × ℤ)) : Prop :=
  spots.Nodup ∧
  (∀ p ∈ spots, cellAt g p.1 p.2 = some Cell.PATH) ∧
  (excludeNearStart = true → ∀ p ∈ spots, ¬(p.1 < 4 ∧ p.2 < 4))

theorem findSpotsLoop_inv (g : Grid) (count : ℕ) (ex : Bool) (rnd : ℕ → ℚ) :
    ∀ (fuel k : ℕ) (spots : List (ℤ × ℤ)) (attempts : ℕ) (res : List (ℤ × ℤ)),
      SpotsInv g ex spots →
      findSpotsLoop g count ex rnd fuel k spots attempts = some res →
      SpotsInv g ex res := by
  intro fuel
  induction fuel with
  | zero =>
    intro k spots attempts res hinv hres
    rw [findSpotsLoop] at hres
    by_cases hg : ¬(spots.length < count ∧ attempts < 1000)
    · rw [if_pos hg] at hres
      cases hres
      exact hinv
    · rw [if_neg hg] at hres
      cases hres
  | succ fuel ih =>
    intro k spots attempts res hinv hres
    rw [findSpotsLoop] at hres
    by_cases hg : ¬(spots.length < count ∧ attempts < 1000)
    · rw [if_pos hg] at hres
      cases hres
      exact hinv
    · rw [if_neg hg] at hres
      simp only at hres
      set x : ℤ := Rat.floor (rnd k * (gridW g : ℚ)) with hx
      set z : ℤ := Rat.floor (rnd (k + 1) * (gridH g : ℚ)) with hz
      by_cases hpath : cellAt g x z = some Cell.PATH
      · rw [if_pos hpath] at hres
        by_cases hexc : ex ∧ x < 4 ∧ z < 4
        · rw [if_pos hexc] at hres
          exact ih _ _ _ _ hinv hres
        · rw [if_neg hexc] at hres
          by_cases hdup : spots.any fun s => decide (s.1 = x) && decide (s.2 = z)
          · rw [if_pos hdup] at hres
            exact ih _ _ _ _ hinv hres
          · rw [if_neg hdup] at hres
            refine ih _ _ _ _ ?_ hres
            obtain ⟨hnd, hpa, hexa⟩ := hinv
            have hnotin : (x, z) ∉ spots := by
              intro hmem
              apply hdup
              rw [List.any_eq_true]
              exact ⟨(x, z), hmem, by simp⟩
            refine ⟨?_, ?_, ?_⟩
            · rw [List.nodup_append]
              exact ⟨hnd, List.nodup_singleton _,
                fun a ha hb => by
                  rw [List.mem_singleton] at hb
                  subst hb
                  exact hnotin ha⟩
            · intro p hp
              rcases List.mem_append.mp hp with hp | hp
              · exact hpa p hp
              · rw [List.mem_singleton] at hp
                subst hp
                exact hpath
            · intro hexT p hp
              rcases List.mem_append.mp hp with hp | hp
              · exact hexa hexT p hp
              · rw [List.mem_singleton] at hp
                subst hp
                intro hlt
                exact hexc ⟨hexT, hlt.1, hlt.2⟩
      · rw [if_neg hpath] at hres
        exact ih _ _ _ _ hinv hres

/-- C9: `findEmptySpots(grid, 0)` returns the empty sequence, and whenever
the sampler returns, the returned spots are pairwise distinct, every spot
is a PATH cell, and with `excludeNearStart = true` no spot lies inside the
4×4 block anchored at the start corner.  `rnd` ranges over arbitrary
`Math.random` outcomes in `[0, 1)`. -/
theorem findEmptySpots_spec :
    (∀ (g : Grid) (ex : Bool) (rnd : ℕ → ℚ) (fuel : ℕ), g ≠ [] →
      findEmptySpots g 0 ex rnd fuel = Except.ok (some [])) ∧
    (∀ (g : Grid) (count : ℕ) (ex : Bool) (rnd : ℕ → ℚ) (fuel : ℕ)
      (spots : List (ℤ × ℤ)),
      (∀ n, 0 ≤ rnd n ∧ rnd n < 1) →
      findEmptySpots g count ex rnd fuel = Except.ok (some spots) →
      spots.Nodup ∧
      (∀ p ∈ spots, cellAt g p.1 p.2 = some Cell.PATH) ∧
      (ex = true → ∀ p ∈ spots, ¬(p.1 < 4 ∧ p.2 < 4))) := by
  constructor
  · intro g ex rnd fuel hg
    have hne : ¬g.isEmpty := by
      intro h
      exact hg (List.isEmpty_iff.mp h)
    rw [findEmptySpots, if_neg hne]
    cases fuel with
    | zero => rfl
    | succ n => rfl
  · intro g count ex rnd fuel spots hr hres
    rw [findEmptySpots] at hres
    by_cases hne : g.isEmpty
    · rw [if_pos hne] at hres
      cases hres
    · rw [if_neg hne] at hres
      have hinv0 : SpotsInv g ex [] :=
        ⟨List.nodup_nil, fun p hp => absurd hp (List.not_mem_nil p),
          fun _ p hp => absurd hp (List.not_mem_nil p)⟩
      exact findSpotsLoop_inv g count ex rnd fuel 0 [] 0 spots hinv0 (by injection hres)

unseal Rat.add Rat.mul Rat.sub Rat.inv in
/-- Witness for C9: on the 1×1 PATH grid, `count = 0` yields `[]`, and a
returning run with `count = 1` satisfies all three invariants. -/
theorem findEmptySpots_spec_witness :
    findEmptySpots [[Cell.PATH]] 0 false (fun _ => 0) 5 = Except.ok (some []) ∧
    ([((0 : ℤ), (0 : ℤ))].Nodup ∧
      (∀ p ∈ [((0 : ℤ), (0 : ℤ))], cellAt [[Cell.PATH]] p.1 p.2 = some Cell.PATH) ∧
      (false = true → ∀ p ∈ [((0 : ℤ), (0 : ℤ))], ¬(p.1 < 4 ∧ p.2 < 4))) :=
  ⟨findEmptySpots_spec.1 [[Cell.PATH]] false (fun _ => 0) 5 (by decide),
    findEmptySpots_spec.2 [[Cell.PATH]] 1 false (fun _ => 0) 1 [((0 : ℤ), (0 : ℤ))]
      (by intro n; constructor <;> norm_num) rfl⟩

/-- On an all-WALL grid no random pick is ever accepted. -/
theorem cellAt_allWall (x z : ℤ) : cellAt [[Cell.WALL]] x z ≠ some Cell.PATH := by
  unfold cellAt
  split
  · rcases hz : z.toNat with _ | n
    · rcases hx : x.toNat with _ | m
      · simp [hz, hx]
      · simp [hz, hx]
    · simp [hz]
  · simp

/-- C2 is a code bug: `attempts` is declared `const attempts = 0;` and never
incremented, so the `attempts < 1000` guard can never trip.  On a grid with
no PATH cell and `count = 1`, the loop never returns — for every fuel bound
and every `Math.random` stream the loop is still running (`.ok none`),
instead of stopping after 1000 attempts with a short result as the claim
states. -/
theorem findEmptySpots_unbounded_loop (ex : Bool) (rnd : ℕ → ℚ) (fuel : ℕ) :
    findEmptySpots [[Cell.WALL]] 1 ex rnd fuel = Except.ok none := by
  rw [findEmptySpots, if_neg (by decide)]
  suffices h : ∀ (f k : ℕ), findSpotsLoop [[Cell.WALL]] 1 ex rnd f k [] 0 = none by
    rw [h fuel 0]
  intro f
  induction f with
  | zero => intro k; rfl
  | succ f ih =>
    intro k
    rw [findSpotsLoop]
    rw [if_neg (by simp)]
    simp only
    rw [if_neg (cellAt_allWall _ _)]
    exact ih (k + 2)

/-! ## PathFinder: `findShortestPath` (src/utils/maze.ts lines 83-132)

Breadth-first search with the full path stored per queue entry.  The
`visited` string set keyed by `` `${x},${z}` `` is modelled as a
`Finset (ℤ × ℤ)` (the keying is injective on integer pairs). -/

/-- The walkability test applied to each neighbor (src/utils/maze.ts lines
115-117): in bounds with respect to `grid.length` / `grid[0].length`, and
the looked-up cell is not a WALL (a JS `undefined` read on a ragged row
also passes the `!== WALL` test, hence `≠ some WALL` on the `Option`). -/
def walkable (g : Grid) (p : ℤ × ℤ) : Prop :=
  inBounds g p.1 p.2 ∧ cellAt g p.1 p.2 ≠ some Cell.WALL

instance (g : Grid) (p : ℤ × ℤ) : Decidable (walkable g p) := by
  unfold walkable; infer_instance

/-- The neighbor list of src/utils/maze.ts lines 106-111, in source order. -/
def nbrs (p : ℤ × ℤ) : List (ℤ × ℤ) :=
  [(p.1 + 1, p.2), (p.1 - 1, p.2), (p.1, p.2 + 1), (p.1, p.2 - 1)]

/-- Processing of a single neighbor (lines 113-127): if walkable and not
yet visited, mark visited and append the extended path to the queue. -/
def pushStep (g : Grid) (path : List (ℤ × ℤ))
    (acc : Finset (ℤ × ℤ) × List ((ℤ × ℤ) × List (ℤ × ℤ))) (n : ℤ × ℤ) :
    Finset (ℤ × ℤ) × List ((ℤ × ℤ) × List (ℤ × ℤ)) :=
  if walkable g n ∧ n ∉ acc.1 then (insert n acc.1, acc.2 ++ [(n, path ++ [n])])
  else acc

/-- The whole `for (const neighbor of neighbors)` pass: returns the
updated visited set and the list of entries pushed this iteration. -/
def pushNbrs (g : Grid) (visited : Finset (ℤ × ℤ)) (pos : ℤ × ℤ)
    (path : List (ℤ × ℤ)) : Finset (ℤ × ℤ) × List ((ℤ × ℤ) × List (ℤ × ℤ)) :=
  (nbrs pos).foldl (pushStep g path) (visited, [])

/-- All in-bounds cells of a grid, used only as a termination measure. -/
def inBFinset (g : Grid) : Finset (ℤ × ℤ) :=
  Finset.Ico (0 : ℤ) (gridW g : ℤ) ×ˢ Finset.Ico (0 : ℤ) (gridH g : ℤ)

theorem mem_inBFinset {g : Grid} {p : ℤ × ℤ} :
    p ∈ inBFinset g ↔ inBounds g p.1 p.2 := by
  unfold inBFinset inBounds
  rw [Finset.mem_product, Finset.mem_Ico, Finset.mem_Ico]
  tauto

/-- The two facts about a neighbor pass needed for termination: the visited
set only grows, and either nothing was pushed (state unchanged) or some
newly visited in-bounds cell witnesses strict growth. -/
theorem foldl_pushStep_growth (g : Grid) (path : List (ℤ × ℤ)) :
    ∀ (l : List (ℤ × ℤ)) (vis : Finset (ℤ × ℤ)) (acc : List ((ℤ × ℤ) × List (ℤ × ℤ))),
      vis ⊆ (l.foldl (pushStep g path) (vis, acc)).1 ∧
      ((l.foldl (pushStep g path) (vis, acc)) = (vis, acc) ∨
        ∃ c, c ∉ vis ∧ walkable g c ∧ c ∈ (l.foldl (pushStep g path) (vis, acc)).1) := by
  intro l
  induction l with
  | nil => intro vis acc; exact ⟨Finset.Subset.refl _, Or.inl rfl⟩
  | cons n l ih =>
    intro vis acc
    by_cases h : walkable g n ∧ n ∉ vis
    · have hstep : pushStep g path (vis, acc) n =
          (insert n vis, acc ++ [(n, path ++ [n])]) := by
        simp only [pushStep]
        rw [if_pos h]
      have := ih (insert n vis) (acc ++ [(n, path ++ [n])])
      constructor
      · intro a ha
        simp only [List.foldl_cons, hstep]
        exact this.1 (Finset.mem_insert_of_mem ha)
      · refine Or.inr ⟨n, h.2, h.1, ?_⟩
        simp only [List.foldl_cons, hstep]
        exact this.1 (Finset.mem_insert_self _ _)
    · have hstep : pushStep g path (vis, acc) n = (vis, acc) := by
        simp only [pushStep]
        rw [if_neg h]
      simp only [List.foldl_cons, hstep]
      exact ih vis acc

/-- The BFS `while (queue.length > 0)` loop (lines 99-129). -/
def bfsLoop (g : Grid) (endc : ℤ × ℤ) :
    List ((ℤ × ℤ) × List (ℤ × ℤ)) → Finset (ℤ × ℤ) → List (ℤ × ℤ)
  | [], _ => []
  | (pos, path) :: rest, visited =>
    if pos = endc then path
    else
      let r := pushNbrs g visited pos path
      bfsLoop g endc (rest ++ r.2) r.1
termination_by queue visited => (((inBFinset g) \ visited).card, queue.length)
decreasing_by
  rcases (foldl_pushStep_growth g path (nbrs (pos, path).1) visited []).2 with heq | ⟨c, hc, hw, hcin⟩
  · have h1 : (pushNbrs g visited (pos, path).1 (pos, path).2).1 = visited := by
      rw [pushNbrs, heq]
    have h2 : (pushNbrs g visited (pos, path).1 (pos, path).2).2 = [] := by
      rw [pushNbrs, heq]
    rw [h1, h2]
    exact Prod.Lex.right _ (by simp)
  · have hsub : visited ⊆ (pushNbrs g visited (pos, path).1 (pos, path).2).1 :=
      (foldl_pushStep_growth g path (nbrs (pos, path).1) visited []).1
    apply Prod.Lex.left
    apply Finset.card_lt_card
    constructor
    · intro a ha
      rw [Finset.mem_sdiff] at ha ⊢
      exact ⟨ha.1, fun hmem => ha.2 (hsub hmem)⟩
    · intro hsub2
      have hcB : c ∈ inBFinset g := mem_inBFinset.mpr hw.1
      have : c ∈ inBFinset g \ (pushNbrs g visited (pos, path).1 (pos, path).2).1 → False := by
        intro hmem
        rw [Finset.mem_sdiff] at hmem
        exact hmem.2 hcin
      have hcvis : c ∈ inBFinset g \ visited := Finset.mem_sdiff.mpr ⟨hcB, hc⟩
      exact this (hsub2 hcvis)

/-- `findShortestPath(grid, start, end)` (lines 83-132): floor the
continuous start and end positions, seed the queue with the floored start
(marked visited, path `[start]`), and run the BFS loop. -/
def findShortestPath (g : Grid) (start endp : ℚ × ℚ) : List (ℤ × ℤ) :=
  let s : ℤ × ℤ := (Rat.floor start.1, Rat.floor start.2)
  let e : ℤ × ℤ := (Rat.floor endp.1, Rat.floor endp.2)
  bfsLoop g e [(s, [s])] {s}

/-- C10: when the floored start and end cells coincide, the very first
dequeue matches and `findShortestPath` returns the singleton path holding
the floored start cell — for every grid, with no inspection of that cell's
type or bounds (it may be a WALL cell or lie outside the grid). -/
theorem findShortestPath_same_cell (g : Grid) (start endp : ℚ × ℚ)
    (h : (Rat.floor start.1, Rat.floor start.2) = (Rat.floor endp.1, Rat.floor endp.2)) :
    findShortestPath g start endp = [(Rat.floor start.1, Rat.floor start.2)] := by
  rw [findShortestPath]
  rw [bfsLoop]
  rw [if_pos h]

unseal Rat.add Rat.mul Rat.sub Rat.inv in
/-- Witness for C10: on the empty grid, with start `(-3.5, -2)` and end
`(-3.3, -2)` (both flooring to the out-of-bounds cell `(-4, -2)`), the
result is the singleton `[(-4, -2)]`. -/
theorem findShortestPath_same_cell_witness :
    findShortestPath [] (-7/2, -2) (-33/10, -2) = [((-4 : ℤ), (-2 : ℤ))] := by
  have h := findShortestPath_same_cell [] (-7/2, -2) (-33/10, -2) (by decide)
  rw [h]
  decide

/-! ### Walks, reachability and distance on the grid graph -/

/-- Two cells differ by exactly one unit in exactly one axis. -/
def adjC (a b : ℤ × ℤ) : Prop :=
  (a.1 = b.1 ∧ (b.2 = a.2 + 1 ∨ b.2 = a.2 - 1)) ∨
  (a.2 = b.2 ∧ (b.1 = a.1 + 1 ∨ b.1 = a.1 - 1))

instance (a b : ℤ × ℤ) : Decidable (adjC a b) := by
  unfold adjC; infer_instance

theorem adjC_symm {a b : ℤ × ℤ} (h : adjC a b) : adjC b a := by
  rcases a with ⟨ax, az⟩
  rcases b with ⟨bx, bz⟩
  unfold adjC at h ⊢
  simp only at h ⊢
  omega

theorem mem_nbrs_iff {p n : ℤ × ℤ} : n ∈ nbrs p ↔ adjC p n := by
  rcases p with ⟨px, pz⟩
  rcases n with ⟨nx, nz⟩
  simp only [nbrs, adjC, List.mem_cons, List.mem_singleton, Prod.mk.injEq,
    List.not_mem_nil, or_false]
  constructor
  · intro h
    rcases h with ⟨h1, h2⟩ | ⟨h1, h2⟩ | ⟨h1, h2⟩ | ⟨h1, h2⟩ <;> omega
  · intro h
    rcases h with ⟨h1, h2 | h2⟩ | ⟨h1, h2 | h2⟩ <;> omega

/-- A 4-connected walk through walkable cells from `a` to `b`, inclusive.
This is exactly the shape of sequence `findShortestPath` promises: it
starts at `a`, ends at `b`, every consecutive pair differs by one unit in
one axis, and every cell is in-bounds and not a WALL. -/
def ValidWalk (g : Grid) (a b : ℤ × ℤ) (l : List (ℤ × ℤ)) : Prop :=
  l.head? = some a ∧ l.getLast? = some b ∧ l.Chain' adjC ∧ ∀ p ∈ l, walkable g p

def Reachable (g : Grid) (a b : ℤ × ℤ) : Prop := ∃ l, ValidWalk g a b l

/-- `b` is reachable from `a` in exactly `n` steps (a walk of `n + 1` cells). -/
def ReachN (g : Grid) (a b : ℤ × ℤ) (n : ℕ) : Prop :=
  ∃ l, ValidWalk g a b l ∧ l.length = n + 1

/-- BFS distance: the least step count of a walk from `a` to `b` (a
specification-side notion, not part of the embedded code). -/
noncomputable def gdist (g : Grid) (a b : ℤ × ℤ) : ℕ := sInf {n | ReachN g a b n}

theorem validWalk_ne_nil {g : Grid} {a b : ℤ × ℤ} {l : List (ℤ × ℤ)}
    (h : ValidWalk g a b l) : l ≠ [] := by
  intro hl
  rw [hl] at h
  cases h.1

theorem reachable_iff_reachN {g : Grid} {a b : ℤ × ℤ} :
    Reachable g a b ↔ ∃ n, ReachN g a b n := by
  constructor
  · rintro ⟨l, hl⟩
    have hne := validWalk_ne_nil hl
    have : l.length ≠ 0 := fun h => hne (List.length_eq_zero.mp h)
    exact ⟨l.length - 1, l, hl, by omega⟩
  · rintro ⟨n, l, hl, -⟩
    exact ⟨l, hl⟩

theorem validWalk_singleton {g : Grid} {a : ℤ × ℤ} (h : walkable g a) :
    ValidWalk g a a [a] :=
  ⟨rfl, rfl, List.chain'_singleton a, fun p hp => by
    rw [List.mem_singleton] at hp; rw [hp]; exact h⟩

theorem validWalk_snoc {g : Grid} {a b c : ℤ × ℤ} {l : List (ℤ × ℤ)}
    (h : ValidWalk g a b l) (hadj : adjC b c) (hc : walkable g c) :
    ValidWalk g a c (l ++ [c]) := by
  obtain ⟨hhead, hlast, hchain, hall⟩ := h
  refine ⟨?_, ?_, ?_, ?_⟩
  · rw [List.head?_append, hhead]; rfl
  · rw [List.getLast?_append]; rfl
  · rw [List.chain'_append]
    refine ⟨hchain, List.chain'_singleton c, ?_⟩
    intro x hx y hy
    rw [hlast, Option.mem_def, Option.some_inj] at hx
    cases hy
    exact hx ▸ hadj
  · intro p hp
    rcases List.mem_append.mp hp with hp | hp
    · exact hall p hp
    · rw [List.mem_singleton] at hp
      rw [hp]
      exact hc

theorem reachN_dist {g : Grid} {a b : ℤ × ℤ} (h : Reachable g a b) :
    ReachN g a b (gdist g a b) :=
  Nat.sInf_mem (reachable_iff_reachN.mp h)

theorem gdist_le {g : Grid} {a b : ℤ × ℤ} {n : ℕ} (h : ReachN g a b n) :
    gdist g a b ≤ n :=
  Nat.sInf_le h

theorem gdist_self {g : Grid} {a : ℤ × ℤ} (h : walkable g a) : gdist g a a = 0 :=
  Nat.le_zero.mp (gdist_le ⟨[a], validWalk_singleton h, rfl⟩)

/-- A walk leaving a visited set must cross it: it decomposes around a
first consecutive pair `u ∈ vis`, `w ∉ vis`. -/
theorem walk_crossing {vis : Finset (ℤ × ℤ)} :
    ∀ (l : List (ℤ × ℤ)) (a b : ℤ × ℤ), l.head? = some a → l.getLast? = some b →
      a ∈ vis → b ∉ vis →
      ∃ (l₁ l₂ : List (ℤ × ℤ)) (u w : ℤ × ℤ),
        l = l₁ ++ u :: w :: l₂ ∧ u ∈ vis ∧ w ∉ vis := by
  intro l
  induction l with
  | nil => intro a b h; cases h
  | cons x l ih =>
    intro a b hhead hlast ha hb
    rw [List.head?_cons, Option.some_inj] at hhead
    subst hhead
    cases l with
    | nil =>
      have : x = b := by simpa using hlast
      subst this
      exact absurd ha hb
    | cons y l' =>
      by_cases hy : y ∈ vis
      · have hlast' : (y :: l').getLast? = some b := by
          rw [← hlast, List.getLast?_cons_cons]
        obtain ⟨l₁, l₂, u, w, heq, hu, hw⟩ := ih y b rfl hlast' hy hb
        exact ⟨x :: l₁, l₂, u, w, by rw [heq]; rfl, hu, hw⟩
      · exact ⟨[], l', x, y, rfl, ha, hy⟩

/-- The prefix of a walk up to an interior cell is a walk to that cell, so
the cell's distance is bounded by its index in the walk. -/
theorem gdist_le_prefix {g : Grid} {s b u : ℤ × ℤ} {l₁ tail : List (ℤ × ℤ)}
    (hw : ValidWalk g s b (l₁ ++ u :: tail)) : gdist g s u ≤ l₁.length := by
  obtain ⟨hhead, hlast, hchain, hall⟩ := hw
  have hassoc : l₁ ++ u :: tail = (l₁ ++ [u]) ++ tail := by simp
  refine gdist_le ⟨l₁ ++ [u], ⟨?_, ?_, ?_, ?_⟩, by simp⟩
  · cases l₁ with
    | nil => simpa using hhead
    | cons p l₁' => simpa using hhead
  · rw [List.getLast?_append]
    rfl
  · rw [hassoc, List.chain'_append] at hchain
    exact hchain.1
  · intro p hp
    refine hall p ?_
    rw [hassoc]
    exact List.mem_append.mpr (Or.inl hp)

/-! ### Full characterisation of a neighbor pass -/

theorem foldl_pushStep_spec (g : Grid) (path : List (ℤ × ℤ)) :
    ∀ (l : List (ℤ × ℤ)) (vis : Finset (ℤ × ℤ)) (acc : List ((ℤ × ℤ) × List (ℤ × ℤ))),
      (∀ ent ∈ acc, ent.1 ∈ vis) → (acc.map Prod.fst).Nodup →
      (∀ ent ∈ (l.foldl (pushStep g path) (vis, acc)).2,
        ent ∈ acc ∨ ∃ n, ent = (n, path ++ [n]) ∧ n ∈ l ∧ walkable g n ∧ n ∉ vis) ∧
      (∀ n ∈ l, walkable g n → n ∈ (l.foldl (pushStep g path) (vis, acc)).1) ∧
      (∀ v ∈ (l.foldl (pushStep g path) (vis, acc)).1,
        v ∈ vis ∨ ∃ ent ∈ (l.foldl (pushStep g path) (vis, acc)).2, ent.1 = v) ∧
      ((l.foldl (pushStep g path) (vis, acc)).2.map Prod.fst).Nodup ∧
      (∀ ent ∈ (l.foldl (pushStep g path) (vis, acc)).2,
        ent.1 ∈ (l.foldl (pushStep g path) (vis, acc)).1) ∧
      (∀ ent ∈ acc, ent ∈ (l.foldl (pushStep g path) (vis, acc)).2) := by
  intro l
  induction l with
  | nil =>
    intro vis acc h1 h2
    exact ⟨fun ent hent => Or.inl hent, fun n hn => absurd hn (List.not_mem_nil n),
      fun v hv => Or.inl hv, h2, fun ent hent => h1 ent hent, fun ent hent => hent⟩
  | cons n l ih =>
    intro vis acc h1 h2
    by_cases hc : walkable g n ∧ n ∉ vis
    · have hstep : pushStep g path (vis, acc) n =
          (insert n vis, acc ++ [(n, path ++ [n])]) := by
        simp only [pushStep]; rw [if_pos hc]
      have h1' : ∀ ent ∈ acc ++ [(n, path ++ [n])], ent.1 ∈ insert n vis := by
        intro ent hent
        rcases List.mem_append.mp hent with hent | hent
        · exact Finset.mem_insert_of_mem (h1 ent hent)
        · rw [List.mem_singleton] at hent
          rw [hent]
          exact Finset.mem_insert_self _ _
      have h2' : ((acc ++ [(n, path ++ [n])]).map Prod.fst).Nodup := by
        rw [List.map_append, List.nodup_append]
        refine ⟨h2, List.nodup_singleton _, ?_⟩
        intro a ha hb
        simp only [List.map_cons, List.map_nil, List.mem_singleton] at hb
        subst hb
        obtain ⟨ent, hent, hfst⟩ := List.mem_map.mp ha
        exact hc.2 (hfst ▸ h1 ent hent)
      obtain ⟨ia, ib, ic, id', ie, ig⟩ := ih (insert n vis) (acc ++ [(n, path ++ [n])]) h1' h2'
      have hfold : (n :: l).foldl (pushStep g path) (vis, acc) =
          l.foldl (pushStep g path) (insert n vis, acc ++ [(n, path ++ [n])]) := by
        rw [List.foldl_cons, hstep]
      rw [hfold]
      refine ⟨?_, ?_, ?_, id', ie, ?_⟩
      · intro ent hent
        rcases ia ent hent with hent' | ⟨m, hm, hml, hmw, hmv⟩
        · rcases List.mem_append.mp hent' with h | h
          · exact Or.inl h
          · rw [List.mem_singleton] at h
            exact Or.inr ⟨n, h, List.mem_cons_self _ _, hc.1, hc.2⟩
        · exact Or.inr ⟨m, hm, List.mem_cons_of_mem _ hml, hmw,
            fun hmem => hmv (Finset.mem_insert_of_mem hmem)⟩
      · intro m hm hmw
        rcases List.mem_cons.mp hm with rfl | hm
        · exact (foldl_pushStep_growth g path l (insert m vis) _).1 (Finset.mem_insert_self _ _)
        · exact ib m hm hmw
      · intro v hv
        rcases ic v hv with hv' | hv'
        · rcases Finset.mem_insert.mp hv' with rfl | hv''
          · exact Or.inr ⟨(v, path ++ [v]), ig _ (List.mem_append.mpr (Or.inr (List.mem_singleton.mpr rfl))), rfl⟩
          · exact Or.inl hv''
        · exact Or.inr hv'
      · intro ent hent
        exact ig ent (List.mem_append.mpr (Or.inl hent))
    · have hstep : pushStep g path (vis, acc) n = (vis, acc) := by
        simp only [pushStep]; rw [if_neg hc]
      have hfold : (n :: l).foldl (pushStep g path) (vis, acc) =
          l.foldl (pushStep g path) (vis, acc) := by
        rw [List.foldl_cons, hstep]
      obtain ⟨ia, ib, ic, id', ie, ig⟩ := ih vis acc h1 h2
      rw [hfold]
      refine ⟨?_, ?_, ic, id', ie, ig⟩
      · intro ent hent
        rcases ia ent hent with h | ⟨m, hm, hml, hmw, hmv⟩
        · exact Or.inl h
        · exact Or.inr ⟨m, hm, List.mem_cons_of_mem _ hml, hmw, hmv⟩
      · intro m hm hmw
        rcases List.mem_cons.mp hm with rfl | hm
        · by_cases hv : m ∈ vis
          · exact (foldl_pushStep_growth g path l vis acc).1 hv
          · exact absurd ⟨hmw, hv⟩ hc
        · exact ib m hm hmw

/-! ### The BFS loop invariant -/

/-- The invariant of `bfsLoop`'s `(queue, visited)` state, for a search
from the floored start `s` towards `endc`:

* every queue entry holds a valid walk from `s` to its cell whose length
  is exactly the BFS distance plus one, and its cell is visited;
* queue entry path lengths are nondecreasing and spread over at most two
  consecutive values;
* visited cells are walkable;
* a visited cell with no pending queue entry has been fully processed: all
  its walkable neighbors are visited;
* no two queue entries share a cell;
* the end cell can only be visited while its entry is still queued (its
  dequeue would have returned);
* the start is visited. -/
structure BfsInv (g : Grid) (s endc : ℤ × ℤ)
    (queue : List ((ℤ × ℤ) × List (ℤ × ℤ))) (visited : Finset (ℤ × ℤ)) : Prop where
  entries : ∀ ent ∈ queue,
    ValidWalk g s ent.1 ent.2 ∧ ent.2.length = gdist g s ent.1 + 1 ∧ ent.1 ∈ visited
  sorted : queue.Pairwise fun e1 e2 =>
    e1.2.length ≤ e2.2.length ∧ e2.2.length ≤ e1.2.length + 1
  visWalk : ∀ v ∈ visited, walkable g v
  cover : ∀ v ∈ visited, (∀ ent ∈ queue, ent.1 ≠ v) →
    ∀ c, adjC v c → walkable g c → c ∈ visited
  cellsNodup : (queue.map Prod.fst).Nodup
  found : endc ∈ visited → ∃ ent ∈ queue, ent.1 = endc
  sMem : s ∈ visited

/-- Freshly discovered neighbors sit exactly one step further from the
start than the dequeued head: the head's entry is of minimal length in the
queue, and any strictly shorter route to the neighbor would have to cross
from the visited region into an unvisited cell next to a still-queued cell
of distance at least the head's — too far along a too-short walk. -/
theorem gdist_fresh_neighbor (g : Grid) (s endc : ℤ × ℤ) (pos : ℤ × ℤ)
    (path : List (ℤ × ℤ)) (rest : List ((ℤ × ℤ) × List (ℤ × ℤ)))
    (visited : Finset (ℤ × ℤ))
    (inv : BfsInv g s endc ((pos, path) :: rest) visited)
    {n : ℤ × ℤ} (hadj : adjC pos n) (hwn : walkable g n) (hnv : n ∉ visited) :
    gdist g s n = gdist g s pos + 1 := by
  have hE := inv.entries (pos, path) (List.mem_cons_self _ _)
  have hw : ValidWalk g s pos path := hE.1
  have hlen : path.length = gdist g s pos + 1 := hE.2.1
  have hposvis : pos ∈ visited := hE.2.2
  have hle : gdist g s n ≤ gdist g s pos + 1 := by
    refine gdist_le ⟨path ++ [n], validWalk_snoc hw hadj hwn, ?_⟩
    rw [List.length_append, hlen]
    rfl
  refine le_antisymm hle ?_
  by_contra hlt
  push_neg at hlt
  have hdn : gdist g s n ≤ gdist g s pos := by omega
  have hreach : Reachable g s n := ⟨path ++ [n], validWalk_snoc hw hadj hwn⟩
  obtain ⟨l, hwl, hlenl⟩ := reachN_dist hreach
  obtain ⟨l₁, l₂, u, w, heq, hu, hwv⟩ :=
    walk_crossing l s n hwl.1 hwl.2.1 inv.sMem hnv
  -- the crossing edge is adjacent and its target walkable
  have hchain := hwl.2.2.1
  rw [heq] at hchain
  have hadjuw : adjC u w := by
    rw [List.chain'_append] at hchain
    have := hchain.2.1
    exact (List.chain'_cons.mp this).1
  have hwalkw : walkable g w := by
    refine hwl.2.2.2 w ?_
    rw [heq]
    exact List.mem_append.mpr (Or.inr (List.mem_cons_of_mem _ (List.mem_cons_self _ _)))
  -- some queue entry still holds u, else the cover property visits w
  have hqu : ∃ ent ∈ (pos, path) :: rest, ent.1 = u := by
    by_contra hno
    push_neg at hno
    exact hwv (inv.cover u hu (fun ent hent => hno ent hent) w hadjuw hwalkw)
  obtain ⟨ent, hent, hentu⟩ := hqu
  -- the head entry is minimal, so gdist s u is at least gdist s pos
  have hdu : gdist g s pos ≤ gdist g s u := by
    rcases List.mem_cons.mp hent with rfl | hent'
    · exact le_of_eq (congrArg (gdist g s) hentu)
    · have hrel : path.length ≤ ent.2.length ∧ ent.2.length ≤ path.length + 1 :=
        (List.pairwise_cons.mp inv.sorted).1 ent hent'
      have hentl := (inv.entries ent (List.mem_cons_of_mem _ hent')).2.1
      rw [hlen, hentl, hentu] at hrel
      omega
  -- but u lies at index l₁.length of a walk of length gdist s n + 1
  have hpre : gdist g s u ≤ l₁.length := by
    rw [heq] at hwl
    exact gdist_le_prefix ⟨hwl.1, hwl.2.1, hwl.2.2.1, hwl.2.2.2⟩
  have hlength : l₁.length + (l₂.length + 1 + 1) = gdist g s n + 1 := by
    rw [heq] at hlenl
    simpa [List.length_append] using hlenl
  omega

/-- One BFS iteration preserves the loop invariant: dequeue the head
`(pos, path)` (with `pos ≠ endc`), push its fresh walkable neighbors, and
continue with the grown visited set. -/
theorem bfsInv_step (g : Grid) (s endc pos : ℤ × ℤ) (path : List (ℤ × ℤ))
    (rest : List ((ℤ × ℤ) × List (ℤ × ℤ))) (visited : Finset (ℤ × ℤ))
    (inv : BfsInv g s endc ((pos, path) :: rest) visited) (hne : pos ≠ endc) :
    BfsInv g s endc (rest ++ (pushNbrs g visited pos path).2)
      (pushNbrs g visited pos path).1 := by
  obtain ⟨sa, sb, sc, sd, se, -⟩ := foldl_pushStep_spec g path (nbrs pos) visited []
    (fun ent hent => absurd hent (List.not_mem_nil ent)) List.nodup_nil
  have hsub : visited ⊆ (pushNbrs g visited pos path).1 :=
    (foldl_pushStep_growth g path (nbrs pos) visited []).1
  have sa' : ∀ ent ∈ (pushNbrs g visited pos path).2,
      ∃ n, ent = (n, path ++ [n]) ∧ adjC pos n ∧ walkable g n ∧ n ∉ visited := by
    intro ent hent
    rcases sa ent hent with h | ⟨n, hn, hnl, hw, hv⟩
    · exact absurd h (List.not_mem_nil ent)
    · exact ⟨n, hn, mem_nbrs_iff.mp hnl, hw, hv⟩
  have hE := inv.entries (pos, path) (List.mem_cons_self _ _)
  have hw : ValidWalk g s pos path := hE.1
  have hlen : path.length = gdist g s pos + 1 := hE.2.1
  refine ⟨?_, ?_, ?_, ?_, ?_, ?_, hsub inv.sMem⟩
  · -- entries
    intro ent hent
    rcases List.mem_append.mp hent with hent | hent
    · obtain ⟨vw, el, cv⟩ := inv.entries ent (List.mem_cons_of_mem _ hent)
      exact ⟨vw, el, hsub cv⟩
    · obtain ⟨n, rfl, hadj, hwn, hnv⟩ := sa' ent hent
      have hdist := gdist_fresh_neighbor g s endc pos path rest visited inv hadj hwn hnv
      refine ⟨validWalk_snoc hw hadj hwn, ?_, se _ hent⟩
      show (path ++ [n]).length = gdist g s n + 1
      rw [List.length_append, hlen, hdist]
      rfl
  · -- sorted
    rw [List.pairwise_append]
    refine ⟨inv.sorted.of_cons, ?_, ?_⟩
    · refine List.pairwise_of_forall_mem_list ?_
      intro e1 he1 e2 he2
      obtain ⟨n1, rfl, -, -, -⟩ := sa' e1 he1
      obtain ⟨n2, rfl, -, -, -⟩ := sa' e2 he2
      constructor <;> simp
    · intro e1 he1 e2 he2
      have hrel : path.length ≤ e1.2.length ∧ e1.2.length ≤ path.length + 1 :=
        (List.pairwise_cons.mp inv.sorted).1 e1 he1
      obtain ⟨n2, rfl, -, -, -⟩ := sa' e2 he2
      show e1.2.length ≤ (path ++ [n2]).length ∧ (path ++ [n2]).length ≤ e1.2.length + 1
      rw [List.length_append]
      constructor <;> [skip; skip] <;> simp <;> omega
  · -- visWalk
    intro v hv
    rcases sc v hv with hv' | ⟨ent, hent, hcell⟩
    · exact inv.visWalk v hv'
    · obtain ⟨n, rfl, -, hwn, -⟩ := sa' ent hent
      exact hcell ▸ hwn
  · -- cover
    intro v hv hnoq c hadj hwc
    rcases sc v hv with hv' | ⟨ent, hent, hcell⟩
    · by_cases hvpos : v = pos
      · subst hvpos
        exact sb c (mem_nbrs_iff.mpr hadj) hwc
      · refine hsub (inv.cover v hv' ?_ c hadj hwc)
        intro ent hent
        rcases List.mem_cons.mp hent with rfl | hent'
        · exact fun h => hvpos h.symm
        · exact hnoq ent (List.mem_append.mpr (Or.inl hent'))
    · exact absurd hcell (hnoq ent (List.mem_append.mpr (Or.inr hent)))
  · -- cellsNodup
    rw [List.map_append, List.nodup_append]
    refine ⟨?_, sd, ?_⟩
    · have := inv.cellsNodup
      rw [List.map_cons] at this
      exact (List.nodup_cons.mp this).2
    · intro a ha hb
      obtain ⟨e1, he1, hfa⟩ := List.mem_map.mp ha
      obtain ⟨e2, he2, hfb⟩ := List.mem_map.mp hb
      have hain : a ∈ visited := hfa ▸ (inv.entries e1 (List.mem_cons_of_mem _ he1)).2.2
      obtain ⟨n, rfl, -, -, hnv⟩ := sa' e2 he2
      exact hnv (by rw [show n = a from hfb]; exact hain)
  · -- found
    intro hend
    rcases sc endc hend with hv' | ⟨ent, hent, hcell⟩
    · obtain ⟨ent, hent, hc⟩ := inv.found hv'
      rcases List.mem_cons.mp hent with rfl | hent'
      · exact absurd hc hne
      · exact ⟨ent, List.mem_append.mpr (Or.inl hent'), hc⟩
    · exact ⟨ent, List.mem_append.mpr (Or.inr hent), hcell⟩

/-- Correctness of the BFS loop under its invariant: an empty result means
the end cell is unreachable from the start, and a nonempty result is a
valid walk from start to end of minimal length (`gdist + 1` cells). -/
theorem bfsLoop_spec (g : Grid) (s endc : ℤ × ℤ) :
    ∀ (queue : List ((ℤ × ℤ) × List (ℤ × ℤ))) (visited : Finset (ℤ × ℤ)),
      BfsInv g s endc queue visited →
      (bfsLoop g endc queue visited = [] → ¬Reachable g s endc) ∧
      (bfsLoop g endc queue visited ≠ [] →
        ValidWalk g s endc (bfsLoop g endc queue visited) ∧
        (bfsLoop g endc queue visited).length = gdist g s endc + 1) := by
  intro queue visited
  induction queue, visited using bfsLoop.induct g endc with
  | case1 vis =>
    intro inv
    refine ⟨fun _ hreach => ?_, fun hcontra => absurd (by rw [bfsLoop]) hcontra⟩
    have hnend : endc ∉ vis := by
      intro h
      obtain ⟨ent, hent, -⟩ := inv.found h
      exact absurd hent (List.not_mem_nil ent)
    obtain ⟨l, hwl⟩ := hreach
    obtain ⟨l₁, l₂, u, w, heq, hu, hwv⟩ :=
      walk_crossing l s endc hwl.1 hwl.2.1 inv.sMem hnend
    have hchain := hwl.2.2.1
    rw [heq] at hchain
    have hadjuw : adjC u w := by
      rw [List.chain'_append] at hchain
      exact (List.chain'_cons.mp hchain.2.1).1
    have hwalkw : walkable g w := by
      refine hwl.2.2.2 w ?_
      rw [heq]
      exact List.mem_append.mpr (Or.inr (List.mem_cons_of_mem _ (List.mem_cons_self _ _)))
    exact hwv (inv.cover u hu (fun ent hent => absurd hent (List.not_mem_nil ent))
      w hadjuw hwalkw)
  | case2 path rest vis =>
    intro inv
    have hres : bfsLoop g endc ((endc, path) :: rest) vis = path := by
      rw [bfsLoop, if_pos rfl]
    have hE := inv.entries (endc, path) (List.mem_cons_self _ _)
    have hw : ValidWalk g s endc path := hE.1
    have hlen : path.length = gdist g s endc + 1 := hE.2.1
    constructor
    · intro h0
      rw [hres] at h0
      exact (validWalk_ne_nil hw h0).elim
    · intro _
      rw [hres]
      exact ⟨hw, hlen⟩
  | case3 pos path rest visited hne r ih =>
    intro inv
    have hstep := bfsInv_step g s endc pos path rest visited inv hne
    have hunf : bfsLoop g endc ((pos, path) :: rest) visited =
        bfsLoop g endc (rest ++ (pushNbrs g visited pos path).2)
          (pushNbrs g visited pos path).1 := by
      rw [bfsLoop, if_neg hne]
    rw [hunf]
    exact ih hstep

/-- The invariant holds for the seeded queue `[(s, [s])]`, `visited = {s}`,
provided the floored start cell is walkable. -/
theorem bfsInv_init (g : Grid) (s endc : ℤ × ℤ) (hs : walkable g s) :
    BfsInv g s endc [(s, [s])] {s} := by
  refine ⟨?_, List.pairwise_singleton _ _, ?_, ?_, List.nodup_singleton _, ?_,
    Finset.mem_singleton_self s⟩
  · intro ent hent
    rw [List.mem_singleton] at hent
    subst hent
    exact ⟨validWalk_singleton hs, by rw [gdist_self hs]; rfl, Finset.mem_singleton_self s⟩
  · intro v hv
    rw [Finset.mem_singleton] at hv
    subst hv
    exact hs
  · intro v hv hnoq
    rw [Finset.mem_singleton] at hv
    subst hv
    exact absurd rfl (hnoq (v, [v]) (List.mem_singleton_self _))
  · intro hend
    rw [Finset.mem_singleton] at hend
    exact ⟨(s, [s]), List.mem_singleton_self _, hend.symm⟩

/-- C3, amended: `findShortestPath` floors `start` and `end`; provided the
floored start cell is in-bounds and non-WALL, the result is empty exactly
when the floored end cell is unreachable through non-WALL cells, and a
nonempty result is an ordered sequence of cells from the floored start to
the floored end inclusive, 4-connected through non-WALL in-bounds cells
with each consecutive pair differing by one unit in exactly one axis
(`ValidWalk`), of minimal cell count among all such routes.  (As stated
the claim fails when the floored start is a WALL or out-of-bounds cell,
which the search never inspects: see
`findShortestPath_wall_start_counterexample`.) -/
theorem findShortestPath_spec (g : Grid) (start endp : ℚ × ℚ)
    (hs : walkable g (Rat.floor start.1, Rat.floor start.2)) :
    (findShortestPath g start endp = [] ↔
      ¬Reachable g (Rat.floor start.1, Rat.floor start.2)
        (Rat.floor endp.1, Rat.floor endp.2)) ∧
    (findShortestPath g start endp ≠ [] →
      ValidWalk g (Rat.floor start.1, Rat.floor start.2)
        (Rat.floor endp.1, Rat.floor endp.2) (findShortestPath g start endp) ∧
      ∀ l, ValidWalk g (Rat.floor start.1, Rat.floor start.2)
        (Rat.floor endp.1, Rat.floor endp.2) l →
        (findShortestPath g start endp).length ≤ l.length) := by
  have hspec := bfsLoop_spec g (Rat.floor start.1, Rat.floor start.2)
    (Rat.floor endp.1, Rat.floor endp.2)
    [((Rat.floor start.1, Rat.floor start.2), [(Rat.floor start.1, Rat.floor start.2)])]
    {(Rat.floor start.1, Rat.floor start.2)}
    (bfsInv_init g _ _ hs)
  have hdef : findShortestPath g start endp =
      bfsLoop g (Rat.floor endp.1, Rat.floor endp.2)
        [((Rat.floor start.1, Rat.floor start.2), [(Rat.floor start.1, Rat.floor start.2)])]
        {(Rat.floor start.1, Rat.floor start.2)} := rfl
  rw [hdef]
  constructor
  · constructor
    · exact hspec.1
    · intro hnr
      by_contra hne
      obtain ⟨hwv, -⟩ := hspec.2 hne
      exact hnr ⟨_, hwv⟩
  · intro hne
    obtain ⟨hwv, hlen⟩ := hspec.2 hne
    refine ⟨hwv, ?_⟩
    intro l hl
    have hnil := validWalk_ne_nil hl
    have hlen' : l.length ≠ 0 := fun h => hnil (List.length_eq_zero.mp h)
    have : gdist g (Rat.floor start.1, Rat.floor start.2)
        (Rat.floor endp.1, Rat.floor endp.2) ≤ l.length - 1 :=
      gdist_le ⟨l, hl, by omega⟩
    omega

unseal Rat.add Rat.mul Rat.sub Rat.inv in
/-- Counterexample to C3 as stated: the search never inspects the start
cell, so on the grid `[[WALL, PATH]]` with start `(0, 0)` — a WALL cell —
and end `(1, 0)`, it returns the sequence `[(0,0), (1,0)]` whose first
cell is a WALL cell.  This is not a route through non-WALL cells, and it
is nonempty although no non-WALL route from `(0,0)` to `(1,0)` exists. -/
theorem findShortestPath_wall_start_counterexample :
    findShortestPath [[Cell.WALL, Cell.PATH]] ((0 : ℚ), (0 : ℚ)) ((1 : ℚ), (0 : ℚ)) =
      [((0 : ℤ), (0 : ℤ)), ((1 : ℤ), (0 : ℤ))] ∧
    cellAt [[Cell.WALL, Cell.PATH]] 0 0 = some Cell.WALL := by
  constructor
  · show bfsLoop [[Cell.WALL, Cell.PATH]] ((1 : ℤ), (0 : ℤ))
        [(((0 : ℤ), (0 : ℤ)), [((0 : ℤ), (0 : ℤ))])] {((0 : ℤ), (0 : ℤ))} = _
    rw [bfsLoop, if_neg (by decide)]
    show bfsLoop [[Cell.WALL, Cell.PATH]] ((1 : ℤ), (0 : ℤ))
        [(((1 : ℤ), (0 : ℤ)), [((0 : ℤ), (0 : ℤ)), ((1 : ℤ), (0 : ℤ))])]
        (insert ((1 : ℤ), (0 : ℤ)) {((0 : ℤ), (0 : ℤ))}) = _
    rw [bfsLoop, if_pos rfl]
  · decide

unseal Rat.add Rat.mul Rat.sub Rat.inv in
/-- Witness for the amended C3: on the 1×2 all-PATH grid with a walkable
start cell, the emptiness-iff-unreachable equivalence holds. -/
theorem findShortestPath_spec_witness :
    walkable [[Cell.PATH, Cell.PATH]] (Rat.floor (0 : ℚ), Rat.floor (0 : ℚ)) ∧
    (findShortestPath [[Cell.PATH, Cell.PATH]] ((0 : ℚ), (0 : ℚ)) ((1 : ℚ), (0 : ℚ)) = [] ↔
      ¬Reachable [[Cell.PATH, Cell.PATH]] (Rat.floor (0 : ℚ), Rat.floor (0 : ℚ))
        (Rat.floor (1 : ℚ), Rat.floor (0 : ℚ))) :=
  ⟨by decide,
    (findShortestPath_spec [[Cell.PATH, Cell.PATH]] ((0 : ℚ), (0 : ℚ)) ((1 : ℚ), (0 : ℚ))
      (by decide)).1⟩

/-! ## Error-channel embeddings for C8

JavaScript can only throw here through a property access on `undefined`
(e.g. `map[cz][cx]` with `cz` out of range, or `map[0].length` on an empty
grid).  The `...E` functions below re-run `checkWallCollision` and
`findShortestPath` with every such access routed through `Except`: an
`.error` models a thrown TypeError.  Both functions guard every access, so
they always return `.ok` — out-of-bounds queries are silently tolerated,
not signalled. -/

/-- The JS expression `map[z][x]`: indexing `map` itself never throws
(an out-of-range numeric property reads `undefined`), but indexing the
resulting `undefined` row does. -/
def cellAtE (map : Grid) (x z : ℤ) : Except String (Option Cell) :=
  match (if 0 ≤ z then map[z.toNat]? else none) with
  | none => Except.error "TypeError: cannot read properties of undefined"
  | some row => Except.ok (if 0 ≤ x then row[x.toNat]? else none)

/-- Effectful short-circuiting `any`, mirroring a `for` loop with an early
`return true`. -/
def anyE (f : ℤ → Except String Bool) : List ℤ → Except String Bool
  | [] => Except.ok false
  | a :: l =>
    match f a with
    | Except.error e => Except.error e
    | Except.ok b => if b then Except.ok true else anyE f l

theorem anyE_ok {f : ℤ → Except String Bool} {p : ℤ → Bool} :
    ∀ {l : List ℤ}, (∀ a ∈ l, f a = Except.ok (p a)) →
      anyE f l = Except.ok (l.any p) := by
  intro l
  induction l with
  | nil => intro _; rfl
  | cons a l ih =>
    intro h
    rw [anyE, h a (List.mem_cons_self _ _)]
    by_cases hb : p a
    · rw [hb]
      simp [List.any_cons, hb]
    · rw [Bool.not_eq_true] at hb
      rw [hb]
      simp only [Bool.false_eq_true, if_false, List.any_cons, hb, Bool.false_or]
      exact ih fun b hb' => h b (List.mem_cons_of_mem _ hb')

/-- Inside the bounds guard the row exists, so the `map[cz][cx]` access
cannot throw and agrees with the total model `cellAt`. -/
theorem cellAtE_ok {map : Grid} {x z : ℤ} (h : inBounds map x z) :
    cellAtE map x z = Except.ok (cellAt map x z) := by
  obtain ⟨hz0, hzl, hx0, -⟩ := h
  have hzn : z.toNat < map.length := by
    rw [gridH] at hzl
    omega
  rcases hr : map[z.toNat]? with _ | row
  · rw [List.getElem?_eq_none_iff] at hr
    omega
  · rw [cellAtE, if_pos hz0, hr, cellAt, if_pos ⟨hx0, hz0⟩, hr]
    show Except.ok (if 0 ≤ x then row[x.toNat]? else none) = Except.ok (row[x.toNat]?)
    rw [if_pos hx0]

/-- `checkWallCollision` with the error channel made explicit. -/
def checkWallCollisionE (x z : ℚ) (map : Grid) : Except String Bool :=
  let pMinX := x - PLAYER_RADIUS
  let pMaxX := x + PLAYER_RADIUS
  let pMinZ := z - PLAYER_RADIUS
  let pMaxZ := z + PLAYER_RADIUS
  let startX := ⌊pMinX - 1/2⌋
  let endX := ⌈pMaxX + 1/2⌉
  let startZ := ⌊pMinZ - 1/2⌋
  let endZ := ⌈pMaxZ + 1/2⌉
  anyE (fun cz =>
    anyE (fun cx =>
      if inBounds map cx cz then
        match cellAtE map cx cz with
        | Except.error e => Except.error e
        | Except.ok cell =>
          Except.ok ((cell == some Cell.WALL) &&
            decide (pMinX < (cx : ℚ) + 1/2) && decide (pMaxX > (cx : ℚ) - 1/2) &&
            decide (pMinZ < (cz : ℚ) + 1/2) && decide (pMaxZ > (cz : ℚ) - 1/2))
      else Except.ok false)
      (intRange startX endX))
    (intRange startZ endZ)

/-- The collision test never signals: it always returns the plain result. -/
theorem checkWallCollisionE_ok (x z : ℚ) (map : Grid) :
    checkWallCollisionE x z map = Except.ok (checkWallCollision x z map) := by
  rw [checkWallCollisionE, checkWallCollision]
  refine anyE_ok ?_
  intro cz _
  refine anyE_ok ?_
  intro cx _
  by_cases hb : inBounds map cx cz
  · rw [if_pos hb, cellAtE_ok hb]
    show Except.ok _ = Except.ok _
    rw [decide_eq_true hb, Bool.true_and]
  · rw [if_neg hb, decide_eq_false hb]
    rw [Bool.false_and, Bool.false_and, Bool.false_and, Bool.false_and, Bool.false_and]

/-- `pushStep` with the `grid[nz][nx]` access routed through the error
channel; the bounds guard is checked first, exactly as in the source. -/
def pushStepE (g : Grid) (path : List (ℤ × ℤ))
    (acc : Finset (ℤ × ℤ) × List ((ℤ × ℤ) × List (ℤ × ℤ))) (n : ℤ × ℤ) :
    Except String (Finset (ℤ × ℤ) × List ((ℤ × ℤ) × List (ℤ × ℤ))) :=
  if inBounds g n.1 n.2 then
    match cellAtE g n.1 n.2 with
    | Except.error e => Except.error e
    | Except.ok cell =>
      if cell ≠ some Cell.WALL ∧ n ∉ acc.1 then
        Except.ok (insert n acc.1, acc.2 ++ [(n, path ++ [n])])
      else Except.ok acc
  else Except.ok acc

/-- Effectful left fold, mirroring a `for` loop whose body may throw. -/
def foldE {α β : Type} (f : β → α → Except String β) : β → List α → Except String β
  | acc, [] => Except.ok acc
  | acc, a :: l =>
    match f acc a with
    | Except.error e => Except.error e
    | Except.ok acc' => foldE f acc' l

theorem foldE_ok {α β : Type} {f : β → α → Except String β} {fp : β → α → β}
    (hf : ∀ acc a, f acc a = Except.ok (fp acc a)) :
    ∀ (l : List α) (acc : β), foldE f acc l = Except.ok (l.foldl fp acc) := by
  intro l
  induction l with
  | nil => intro acc; rfl
  | cons a l ih =>
    intro acc
    rw [foldE, hf acc a]
    exact ih (fp acc a)

theorem pushStepE_ok (g : Grid) (path : List (ℤ × ℤ))
    (acc : Finset (ℤ × ℤ) × List ((ℤ × ℤ) × List (ℤ × ℤ))) (n : ℤ × ℤ) :
    pushStepE g path acc n = Except.ok (pushStep g path acc n) := by
  rw [pushStepE, pushStep]
  by_cases hb : inBounds g n.1 n.2
  · rw [if_pos hb, cellAtE_ok hb]
    show (if cellAt g n.1 n.2 ≠ some Cell.WALL ∧ n ∉ acc.1 then _ else _) = _
    by_cases hc : cellAt g n.1 n.2 ≠ some Cell.WALL ∧ n ∉ acc.1
    · rw [if_pos hc, if_pos ⟨⟨hb, hc.1⟩, hc.2⟩]
    · rw [if_neg hc, if_neg ?_]
      intro h
      exact hc ⟨h.1.2, h.2⟩
  · rw [if_neg hb, if_neg ?_]
    intro h
    exact hb h.1.1

/-- The whole neighbor pass with the error channel explicit. -/
def pushNbrsE (g : Grid) (visited : Finset (ℤ × ℤ)) (pos : ℤ × ℤ)
    (path : List (ℤ × ℤ)) :
    Except String (Finset (ℤ × ℤ) × List ((ℤ × ℤ) × List (ℤ × ℤ))) :=
  foldE (pushStepE g path) (visited, []) (nbrs pos)

theorem pushNbrsE_ok (g : Grid) (visited : Finset (ℤ × ℤ)) (pos : ℤ × ℤ)
    (path : List (ℤ × ℤ)) :
    pushNbrsE g visited pos path = Except.ok (pushNbrs g visited pos path) :=
  foldE_ok (pushStepE_ok g path) (nbrs pos) (visited, [])

/-- The BFS loop with the error channel explicit. -/
def bfsLoopE (g : Grid) (endc : ℤ × ℤ) :
    List ((ℤ × ℤ) × List (ℤ × ℤ)) → Finset (ℤ × ℤ) → Except String (List (ℤ × ℤ))
  | [], _ => Except.ok []
  | (pos, path) :: rest, visited =>
    if pos = endc then Except.ok path
    else
      match h : pushNbrsE g visited pos path with
      | Except.error e => Except.error e
      | Except.ok r => bfsLoopE g endc (rest ++ r.2) r.1
termination_by queue visited => (((inBFinset g) \ visited).card, queue.length)
decreasing_by
  have hr : r = pushNbrs g visited pos path := by
    rw [pushNbrsE_ok] at h
    exact (Except.ok.inj h).symm
  rcases (foldl_pushStep_growth g path (nbrs (pos, path).1) visited []).2 with heq | ⟨c, hc, hw, hcin⟩
  · have h1 : r.1 = visited := by rw [hr, pushNbrs, heq]
    have h2 : r.2 = [] := by rw [hr, pushNbrs, heq]
    rw [h1, h2]
    exact Prod.Lex.right _ (by simp)
  · have hsub : visited ⊆ r.1 := by
      rw [hr]
      exact (foldl_pushStep_growth g path (nbrs (pos, path).1) visited []).1
    apply Prod.Lex.left
    apply Finset.card_lt_card
    constructor
    · intro a ha
      rw [Finset.mem_sdiff] at ha ⊢
      exact ⟨ha.1, fun hmem => ha.2 (hsub hmem)⟩
    · intro hsub2
      have hcB : c ∈ inBFinset g := mem_inBFinset.mpr hw.1
      have hnotin : c ∈ inBFinset g \ r.1 → False := by
        intro hmem
        rw [Finset.mem_sdiff] at hmem
        rw [hr] at hmem
        exact hmem.2 hcin
      exact hnotin (hsub2 (Finset.mem_sdiff.mpr ⟨hcB, hc⟩))

/-- The BFS loop never signals: it always returns the plain result. -/
theorem bfsLoopE_ok (g : Grid) (endc : ℤ × ℤ) :
    ∀ (queue : List ((ℤ × ℤ) × List (ℤ × ℤ))) (visited : Finset (ℤ × ℤ)),
      bfsLoopE g endc queue visited = Except.ok (bfsLoop g endc queue visited) := by
  intro queue visited
  induction queue, visited using bfsLoopE.induct g endc with
  | case1 vis => rw [bfsLoopE, bfsLoop]
  | case2 path rest vis =>
    rw [bfsLoopE, bfsLoop, if_pos rfl, if_pos rfl]
  | case3 pos path rest vis hne e herr =>
    rw [pushNbrsE_ok] at herr
    cases herr
  | case4 pos path rest vis hne r hpush ih =>
    rw [bfsLoopE, if_neg hne, bfsLoop, if_neg hne]
    have hr : r = pushNbrs g vis pos path := by
      rw [pushNbrsE_ok] at hpush
      exact (Except.ok.inj hpush).symm
    rw [hpush]
    subst hr
    exact ih

/-- `findShortestPath` with the error channel explicit. -/
def findShortestPathE (g : Grid) (start endp : ℚ × ℚ) :
    Except String (List (ℤ × ℤ)) :=
  let s : ℤ × ℤ := (Rat.floor start.1, Rat.floor start.2)
  let e : ℤ × ℤ := (Rat.floor endp.1, Rat.floor endp.2)
  bfsLoopE g e [(s, [s])] {s}

/-- C8, amended: out-of-bounds cell queries into the path finder and the
collision resolver are silently tolerated, not signalled: every array
access sits behind a bounds guard, so the error-channel embeddings always
return `.ok` with the ordinary (total) result, for every input. -/
theorem oob_queries_silently_tolerated :
    (∀ (x z : ℚ) (map : Grid),
      checkWallCollisionE x z map = Except.ok (checkWallCollision x z map)) ∧
    (∀ (g : Grid) (start endp : ℚ × ℚ),
      findShortestPathE g start endp = Except.ok (findShortestPath g start endp)) :=
  ⟨checkWallCollisionE_ok, fun g start endp => bfsLoopE_ok g _ _ _⟩

unseal Rat.add Rat.mul Rat.sub Rat.inv in
/-- Counterexample to C8 as stated: a far out-of-bounds collision query and
a path query with a far out-of-bounds start both return normal-looking
results (`.ok false`, `.ok []`) instead of signalling an invalid-argument
condition. -/
theorem oob_query_no_error_counterexample :
    checkWallCollisionE (-100) (-100) [[Cell.WALL]] = Except.ok false ∧
    findShortestPathE [[Cell.WALL]] ((-100 : ℚ), (-100 : ℚ)) ((0 : ℚ), (0 : ℚ)) =
      Except.ok [] := by
  constructor
  · rw [checkWallCollisionE_ok,
      show checkWallCollision (-100) (-100) [[Cell.WALL]] = false by decide]
  · rw [show findShortestPathE [[Cell.WALL]] ((-100 : ℚ), (-100 : ℚ)) ((0 : ℚ), (0 : ℚ)) =
        bfsLoopE [[Cell.WALL]] ((0 : ℤ), (0 : ℤ))
          [(((-100 : ℤ), (-100 : ℤ)), [((-100 : ℤ), (-100 : ℤ))])]
          {((-100 : ℤ), (-100 : ℤ))} from rfl]
    rw [bfsLoopE_ok, bfsLoop, if_neg (by decide)]
    show Except.ok (bfsLoop [[Cell.WALL]] ((0 : ℤ), (0 : ℤ)) []
      {((-100 : ℤ), (-100 : ℤ))}) = _
    rw [bfsLoop]

/-! ## MazeGenerator: `generateMaze` (src/utils/maze.ts lines 3-60)

The recursive backtracker.  `shuffle` (`array.sort(() => Math.random() -
0.5)`) always returns some permutation of the four step-2 directions; it
is modelled by an oracle `σ : ℕ → List (ℤ × ℤ)` giving the output of the
`k`-th shuffle call (calls are numbered in carve order by the `ctr`
field), with the permutation property a hypothesis of the theorems.  The
unbounded recursion of `carve` is driven by a fuel parameter; the fuel
`w*h + 1` chosen by `generateMaze` is proved sufficient inside
`carve_spec` (each call permanently carves a fresh in-bounds cell, so the
recursion depth cannot exceed the cell count). -/

/-- The four step-2 directions (src/utils/maze.ts lines 7-12), in source
order: North, East, South, West. -/
def directions : List (ℤ × ℤ) := [(0, -2), (2, 0), (0, 2), (-2, 0)]

/-- `isInBounds` from src/utils/maze.ts lines 18-20. -/
def isInBounds (w h x z : ℤ) : Prop := 0 < x ∧ x < w - 1 ∧ 0 < z ∧ z < h - 1

instance (w h x z : ℤ) : Decidable (isInBounds w h x z) := by
  unfold isInBounds; infer_instance

/-- `grid[z][x] = c`: a point mutation of the grid.  `List.set` ignores an
out-of-range index; every write performed in the claim's domain is
in-bounds, where this matches the JS assignment. -/
def setCellG (g : Grid) (x z : ℤ) (c : Cell) : Grid :=
  if 0 ≤ x ∧ 0 ≤ z then
    match g[z.toNat]? with
    | some row => g.set z.toNat (row.set x.toNat c)
    | none => g
  else g

/-- The mutable state of the carver: the grid, the `carved` set (the
`Set<string>` keyed by `` `${x},${z}` ``, injective on integer pairs), and
the shuffle-call counter. -/
structure CarveSt where
  grid : Grid
  carved : Finset (ℤ × ℤ)
  ctr : ℕ

mutual
/-- One `carve(x, z)` call (src/utils/maze.ts lines 24-40): record the
cell as carved, set it to PATH, shuffle the directions and process them. -/
def carveF : ℕ → (ℕ → List (ℤ × ℤ)) → ℤ → ℤ → ℤ × ℤ → CarveSt → CarveSt
  | 0, _, _, _, _, st => st
  | fuel + 1, σ, w, h, p, st =>
    let st1 : CarveSt :=
      ⟨setCellG st.grid p.1 p.2 Cell.PATH, insert p st.carved, st.ctr + 1⟩
    carveGo fuel σ w h p (σ st.ctr) st1
termination_by fuel _ _ _ _ _ => (fuel, 0)

/-- The `for (const dir of shuffledDirs)` loop body (lines 30-39): for an
in-bounds uncarved step-2 neighbor, carve the intervening wall cell and
recurse into the neighbor. -/
def carveGo : ℕ → (ℕ → List (ℤ × ℤ)) → ℤ → ℤ → ℤ × ℤ → List (ℤ × ℤ) → CarveSt → CarveSt
  | _, _, _, _, _, [], st => st
  | fuel, σ, w, h, p, d :: ds, st =>
    let q : ℤ × ℤ := (p.1 + d.1, p.2 + d.2)
    if isInBounds w h q.1 q.2 ∧ q ∉ st.carved then
      let stw : CarveSt :=
        ⟨setCellG st.grid (p.1 + d.1 / 2) (p.2 + d.2 / 2) Cell.PATH, st.carved, st.ctr⟩
      carveGo fuel σ w h p ds (carveF fuel σ w h q stw)
    else
      carveGo fuel σ w h p ds st
termination_by fuel _ _ _ _ ds _ => (fuel, ds.length + 1)
end

/-- The END-searching `while` loop (src/utils/maze.ts lines 53-56): walk
from `(w-2, h-2)` toward `(1,1)` (x first, then z) until a non-WALL cell.
When stuck on a WALL at `(1, 1)` the JS loop spins forever; here that
burns the fuel down instead (the carver always leaves `(1,1)` non-WALL,
so the case is unreachable from `generateMaze`). -/
def endSearch : ℕ → Grid → ℤ → ℤ → ℤ × ℤ
  | 0, _, ex, ez => (ex, ez)
  | fuel + 1, g, ex, ez =>
    if cellAt g ex ez = some Cell.WALL then
      if 1 < ex then endSearch fuel g (ex - 1) ez
      else if 1 < ez then endSearch fuel g ex (ez - 1)
      else endSearch fuel g ex ez
    else (ex, ez)

/-- `generateMaze(width, height)` (src/utils/maze.ts lines 3-60). -/
def generateMaze (σ : ℕ → List (ℤ × ℤ)) (w h : ℤ) : Grid × (ℤ × ℤ) × (ℤ × ℤ) :=
  let g0 : Grid := List.replicate h.toNat (List.replicate w.toNat Cell.WALL)
  let stF := carveF (w.toNat * h.toNat + 1) σ w h (1, 1) ⟨g0, ∅, 0⟩
  let g1 := setCellG stF.grid 1 1 Cell.START
  let e := endSearch (w + h).toNat g1 (w - 2) (h - 2)
  (setCellG g1 e.1 e.2 Cell.END, (1, 1), e)

/-! ### Grid mutation lemmas -/

/-- A `height × width` grid of uniform rows, as built by the generator. -/
def GridShape (w h : ℤ) (g : Grid) : Prop :=
  g.length = h.toNat ∧ ∀ row ∈ g, row.length = w.toNat

/-- The non-WALL cells of a grid (PATH, START or END). -/
def NW (g : Grid) : Set (ℤ × ℤ) :=
  {p | ∃ c, cellAt g p.1 p.2 = some c ∧ c ≠ Cell.WALL}

theorem gridShape_replicate (w h : ℤ) :
    GridShape w h (List.replicate h.toNat (List.replicate w.toNat Cell.WALL)) := by
  constructor
  · rw [List.length_replicate]
  · intro row hrow
    rw [List.eq_of_mem_replicate hrow, List.length_replicate]

theorem NW_replicate (w h : ℤ) :
    NW (List.replicate h.toNat (List.replicate w.toNat Cell.WALL)) = ∅ := by
  ext p
  simp only [NW, Set.mem_setOf_eq, Set.mem_empty_iff_false, iff_false]
  rintro ⟨c, hc, hne⟩
  apply hne
  rw [cellAt] at hc
  split at hc
  · rcases hrow : (List.replicate h.toNat (List.replicate w.toNat Cell.WALL))[p.2.toNat]? with
      _ | row
    · rw [hrow] at hc
      cases hc
    · rw [hrow, Option.some_bind] at hc
      rcases hcell : row[p.1.toNat]? with _ | c'
      · rw [hcell] at hc
        cases hc
      · rw [hcell] at hc
        injection hc with hc'
        subst hc'
        have hrowrep := List.eq_of_mem_replicate (List.getElem?_mem hrow)
        rw [hrowrep] at hcell
        exact List.eq_of_mem_replicate (List.getElem?_mem hcell)
  · cases hc

theorem gridShape_setCellG {w h : ℤ} {g : Grid} (hs : GridShape w h g)
    (x z : ℤ) (c : Cell) : GridShape w h (setCellG g x z c) := by
  rw [setCellG]
  split
  · rcases hr : g[z.toNat]? with _ | row
    · exact hs
    · constructor
      · rw [List.length_set]
        exact hs.1
      · intro row' hrow'
        rcases List.mem_or_eq_of_mem_set hrow' with hmem | rfl
        · exact hs.2 row' hmem
        · rw [List.length_set]
          exact hs.2 row (List.getElem?_mem hr)
  · exact hs

/-- Point-update description of `setCellG` on a well-shaped grid. -/
theorem cellAt_setCellG {w h : ℤ} {g : Grid} (hs : GridShape w h g)
    {x z : ℤ} (hx0 : 0 ≤ x) (hxw : x < w) (hz0 : 0 ≤ z) (hzh : z < h)
    (c : Cell) (x' z' : ℤ) :
    cellAt (setCellG g x z c) x' z' =
      if x' = x ∧ z' = z then some c else cellAt g x' z' := by
  have hzlen : z.toNat < g.length := by
    rw [hs.1]
    omega
  obtain ⟨row, hrow⟩ : ∃ row, g[z.toNat]? = some row := by
    rcases hr : g[z.toNat]? with _ | row
    · rw [List.getElem?_eq_none_iff] at hr
      omega
    · exact ⟨row, rfl⟩
  have hrowlen : row.length = w.toNat := hs.2 row (List.getElem?_mem hrow)
  have hxlen : x.toNat < row.length := by
    rw [hrowlen]
    omega
  have hset : setCellG g x z c = g.set z.toNat (row.set x.toNat c) := by
    rw [setCellG, if_pos ⟨hx0, hz0⟩, hrow]
  rw [hset]
  by_cases hmain : x' = x ∧ z' = z
  · obtain ⟨rfl, rfl⟩ := hmain
    rw [if_pos ⟨rfl, rfl⟩, cellAt, if_pos ⟨hx0, hz0⟩,
      List.getElem?_set_self hzlen, Option.some_bind, List.getElem?_set_self hxlen]
  · rw [if_neg hmain, cellAt, cellAt]
    by_cases hsign : 0 ≤ x' ∧ 0 ≤ z'
    · rw [if_pos hsign, if_pos hsign]
      by_cases hzz : z'.toNat = z.toNat
      · have hz'z : z' = z := by omega
        have hx'd : x'.toNat ≠ x.toNat := by
          intro hxeq
          exact hmain ⟨by omega, hz'z⟩
        rw [hzz, List.getElem?_set_self hzlen, Option.some_bind, hrow, Option.some_bind,
          List.getElem?_set_ne (Ne.symm hx'd)]
      · rw [List.getElem?_set_ne (fun hzq => hzz hzq.symm)]
    · rw [if_neg hsign, if_neg hsign]

/-- Setting a non-WALL value adds exactly that cell to the non-WALL set. -/
theorem NW_setCellG {w h : ℤ} {g : Grid} (hs : GridShape w h g)
    {x z : ℤ} (hx0 : 0 ≤ x) (hxw : x < w) (hz0 : 0 ≤ z) (hzh : z < h)
    {c : Cell} (hc : c ≠ Cell.WALL) :
    NW (setCellG g x z c) = insert (x, z) (NW g) := by
  ext p
  simp only [NW, Set.mem_setOf_eq, Set.mem_insert_iff]
  rw [cellAt_setCellG hs hx0 hxw hz0 hzh c p.1 p.2]
  by_cases hp : p.1 = x ∧ p.2 = z
  · rw [if_pos hp]
    constructor
    · intro _
      left
      exact Prod.ext hp.1 hp.2
    · intro _
      exact ⟨c, rfl, hc⟩
  · rw [if_neg hp]
    constructor
    · intro hcell
      right
      exact hcell
    · intro hor
      rcases hor with heq | hcell
      · exact absurd ⟨congrArg Prod.fst heq, congrArg Prod.snd heq⟩ hp
      · exact hcell

/-- Every in-bounds cell of a well-shaped grid holds some value. -/
theorem cellAt_some_of_shape {w h : ℤ} {g : Grid} (hs : GridShape w h g)
    {x z : ℤ} (hx0 : 0 ≤ x) (hxw : x < w) (hz0 : 0 ≤ z) (hzh : z < h) :
    ∃ c, cellAt g x z = some c := by
  have hzlen : z.toNat < g.length := by
    rw [hs.1]; omega
  obtain ⟨row, hrow⟩ : ∃ row, g[z.toNat]? = some row := by
    rcases hr : g[z.toNat]? with _ | row
    · rw [List.getElem?_eq_none_iff] at hr
      omega
    · exact ⟨row, rfl⟩
  have hxlen : x.toNat < row.length := by
    rw [hs.2 row (List.getElem?_mem hrow)]
    omega
  obtain ⟨c, hcell⟩ : ∃ c, row[x.toNat]? = some c := by
    rcases hc : row[x.toNat]? with _ | c
    · rw [List.getElem?_eq_none_iff] at hc
      omega
    · exact ⟨c, rfl⟩
  exact ⟨c, by rw [cellAt, if_pos ⟨hx0, hz0⟩, hrow, Option.some_bind, hcell]⟩

/-! ### Simple paths and the spanning-tree property -/

/-- A simple path inside a cell set: nonempty, 4-connected consecutive
cells, all cells in the set, no repeated cell. -/
def IsPathIn (S : Set (ℤ × ℤ)) (l : List (ℤ × ℤ)) : Prop :=
  l ≠ [] ∧ l.Chain' adjC ∧ (∀ p ∈ l, p ∈ S) ∧ l.Nodup

/-- A simple path inside `S` from `a` to `b`, inclusive. -/
def PathBtw (S : Set (ℤ × ℤ)) (a b : ℤ × ℤ) (l : List (ℤ × ℤ)) : Prop :=
  IsPathIn S l ∧ l.head? = some a ∧ l.getLast? = some b

/-- `S` carries a tree structure: exactly one simple path between any two
of its cells. -/
def TreeOn (S : Set (ℤ × ℤ)) : Prop :=
  ∀ a ∈ S, ∀ b ∈ S, ∃! l, PathBtw S a b l

theorem mem_of_getLast?_eq {l : List (ℤ × ℤ)} {x : ℤ × ℤ}
    (h : l.getLast? = some x) : x ∈ l := by
  have hmem := List.mem_getLast?_eq_getLast (l := l) (x := x) (by rw [h]; rfl)
  obtain ⟨hne, rfl⟩ := hmem
  exact List.getLast_mem hne

theorem treeOn_empty : TreeOn ∅ := fun a ha => absurd ha (Set.not_mem_empty a)

theorem pathBtw_singleton {S : Set (ℤ × ℤ)} {a : ℤ × ℤ} (ha : a ∈ S) :
    PathBtw S a a [a] :=
  ⟨⟨List.cons_ne_nil a [], List.chain'_singleton a,
    fun p hp => by rw [List.mem_singleton] at hp; rw [hp]; exact ha,
    List.nodup_singleton a⟩, rfl, rfl⟩

theorem pathBtw_self {S : Set (ℤ × ℤ)} {a : ℤ × ℤ} {l : List (ℤ × ℤ)}
    (h : PathBtw S a a l) : l = [a] := by
  obtain ⟨⟨hne, -, -, hnd⟩, hhead, hlast⟩ := h
  cases l with
  | nil => exact absurd rfl hne
  | cons x rest =>
    rw [List.head?_cons, Option.some_inj] at hhead
    obtain rfl : x = a := hhead
    cases rest with
    | nil => rfl
    | cons y rest' =>
      exfalso
      rw [List.getLast?_cons_cons] at hlast
      have hmem : x ∈ y :: rest' := mem_of_getLast?_eq hlast
      exact (List.nodup_cons.mp hnd).1 hmem

theorem treeOn_singleton (v : ℤ × ℤ) : TreeOn {v} := by
  intro a ha b hb
  rw [Set.mem_singleton_iff] at ha hb
  rw [ha, hb]
  exact ⟨[v], pathBtw_singleton rfl, fun l hl => pathBtw_self hl⟩

theorem pathBtw_mono {S S' : Set (ℤ × ℤ)} (hss : S ⊆ S') {a b : ℤ × ℤ}
    {l : List (ℤ × ℤ)} (h : PathBtw S a b l) : PathBtw S' a b l :=
  ⟨⟨h.1.1, h.1.2.1, fun p hp => hss (h.1.2.2.1 p hp), h.1.2.2.2⟩, h.2.1, h.2.2⟩

theorem pathBtw_reverse {S : Set (ℤ × ℤ)} {a b : ℤ × ℤ} {l : List (ℤ × ℤ)}
    (h : PathBtw S a b l) : PathBtw S b a l.reverse := by
  obtain ⟨⟨hne, hch, hcells, hnd⟩, hhead, hlast⟩ := h
  refine ⟨⟨?_, ?_, ?_, ?_⟩, ?_, ?_⟩
  · intro hrev
    exact hne (by simpa using congrArg List.reverse hrev)
  · rw [List.chain'_reverse]
    exact hch.imp fun x y hxy => adjC_symm hxy
  · intro p hp
    exact hcells p (List.mem_reverse.mp hp)
  · exact List.nodup_reverse.mpr hnd
  · rw [List.head?_reverse]
    exact hlast
  · rw [List.getLast?_reverse]
    exact hhead

theorem pathBtw_reverse_iff {S : Set (ℤ × ℤ)} {a b : ℤ × ℤ} {l : List (ℤ × ℤ)} :
    PathBtw S a b l ↔ PathBtw S b a l.reverse := by
  constructor
  · exact pathBtw_reverse
  · intro h
    have := pathBtw_reverse h
    rwa [List.reverse_reverse] at this

theorem existsUnique_of_reverse {P Q : List (ℤ × ℤ) → Prop}
    (hQ : ∃! m, Q m) (hPQ : ∀ l, P l ↔ Q l.reverse) : ∃! l, P l := by
  obtain ⟨m, hm, hun⟩ := hQ
  refine ⟨m.reverse, ?_, ?_⟩
  · show P m.reverse
    rw [hPQ, List.reverse_reverse]
    exact hm
  · intro l hl
    have : l.reverse = m := hun _ ((hPQ l).mp hl)
    rw [← this, List.reverse_reverse]

/-- A pendant vertex `v` (unique neighbor `u` in `S`) cannot appear in a
simple path of `insert v S` whose endpoints both differ from `v`. -/
theorem pendant_not_mem_path {S : Set (ℤ × ℤ)} {u v a b : ℤ × ℤ}
    {l : List (ℤ × ℤ)} (hpath : PathBtw (insert v S) a b l)
    (ha : a ≠ v) (hb : b ≠ v)
    (huniq : ∀ x ∈ S, adjC v x → x = u) : v ∉ l := by
  intro hv
  obtain ⟨⟨hne, hch, hcells, hnd⟩, hhead, hlast⟩ := hpath
  obtain ⟨l₁, l₂, heq⟩ := List.append_of_mem hv
  subst heq
  -- the prefix is nonempty, else the head is v
  cases l₁ with
  | nil =>
    rw [List.nil_append, List.head?_cons, Option.some_inj] at hhead
    exact ha hhead.symm
  | cons x₀ l₁' =>
    -- the suffix is nonempty, else the last cell is v
    cases l₂ with
    | nil =>
      rw [List.getLast?_concat, Option.some_inj] at hlast
      exact hb hlast.symm
    | cons y l₂' =>
      -- the cell before v maps to u
      obtain ⟨x, hxlast⟩ : ∃ x, (x₀ :: l₁').getLast? = some x :=
        ⟨(x₀ :: l₁').getLast (List.cons_ne_nil _ _), List.getLast?_eq_getLast _ _⟩
      have hxadj : adjC x v := by
        rw [List.chain'_append] at hch
        exact hch.2.2 x (by rw [hxlast]; rfl) v rfl
      have hyadj : adjC v y := by
        rw [List.chain'_append] at hch
        exact (List.chain'_cons.mp hch.2.1).1
      have hxmem : x ∈ x₀ :: l₁' := mem_of_getLast?_eq hxlast
      -- nodup decomposition facts
      rw [List.nodup_append] at hnd
      have hxnev : x ≠ v := by
        intro hxv
        exact hnd.2.2 hxmem (by rw [hxv]; exact List.mem_cons_self _ _)
      have hynev : y ≠ v := by
        intro hyv
        exact (List.nodup_cons.mp hnd.2.1).1 (by rw [← hyv]; exact List.mem_cons_self _ _)
      have hxS : x ∈ S := by
        have := hcells x (List.mem_append.mpr (Or.inl hxmem))
        rcases Set.mem_insert_iff.mp this with hxv | hxS
        · exact absurd hxv hxnev
        · exact hxS
      have hyS : y ∈ S := by
        have := hcells y (List.mem_append.mpr
          (Or.inr (List.mem_cons_of_mem _ (List.mem_cons_self _ _))))
        rcases Set.mem_insert_iff.mp this with hyv | hyS
        · exact absurd hyv hynev
        · exact hyS
      have hxu : x = u := huniq x hxS (adjC_symm hxadj)
      have hyu : y = u := huniq y hyS hyadj
      -- but x sits in the prefix and y in the suffix: they must differ
      have hxny : x ∉ v :: y :: l₂' := fun hmem => hnd.2.2 hxmem hmem
      apply hxny
      rw [hxu, ← hyu]
      exact List.mem_cons_of_mem _ (List.mem_cons_self _ _)

/-- A simple path avoiding `v` in `insert v S` is a path in `S`. -/
theorem pathBtw_restrict {S : Set (ℤ × ℤ)} {v a b : ℤ × ℤ} {l : List (ℤ × ℤ)}
    (h : PathBtw (insert v S) a b l) (hv : v ∉ l) : PathBtw S a b l := by
  refine ⟨⟨h.1.1, h.1.2.1, ?_, h.1.2.2.2⟩, h.2.1, h.2.2⟩
  intro p hp
  rcases Set.mem_insert_iff.mp (h.1.2.2.1 p hp) with rfl | hpS
  · exact absurd hp hv
  · exact hpS

/-- Prepending the pendant vertex to a path from its unique neighbor. -/
theorem pathBtw_cons_pendant {S : Set (ℤ × ℤ)} {u v b : ℤ × ℤ}
    {m : List (ℤ × ℤ)} (hm : PathBtw S u b m) (hadj : adjC v u) (hv : v ∉ S) :
    PathBtw (insert v S) v b (v :: m) := by
  obtain ⟨⟨hne, hch, hcells, hnd⟩, hhead, hlast⟩ := hm
  cases m with
  | nil => exact absurd rfl hne
  | cons u' m' =>
    rw [List.head?_cons, Option.some_inj] at hhead
    obtain rfl : u' = u := hhead
    refine ⟨⟨List.cons_ne_nil _ _, ?_, ?_, ?_⟩, rfl, ?_⟩
    · rw [List.chain'_cons]
      exact ⟨hadj, hch⟩
    · intro p hp
      rcases List.mem_cons.mp hp with rfl | hp
      · exact Set.mem_insert _ _
      · exact Set.mem_insert_of_mem _ (hcells p hp)
    · rw [List.nodup_cons]
      exact ⟨fun hmem => hv (hcells v hmem), hnd⟩
    · rw [List.getLast?_cons_cons]
      exact hlast

/-- Unique simple paths from the pendant vertex `v` to any old vertex. -/
theorem pendant_existsUnique_from_v {S : Set (ℤ × ℤ)} {u v : ℤ × ℤ}
    (hS : TreeOn S) (hu : u ∈ S) (hv : v ∉ S) (hadj : adjC u v)
    (huniq : ∀ x ∈ S, adjC v x → x = u) :
    ∀ b ∈ S, ∃! l, PathBtw (insert v S) v b l := by
  intro b hb
  obtain ⟨m, hm, hmu⟩ := hS u hu b hb
  refine ⟨v :: m, pathBtw_cons_pendant hm (adjC_symm hadj) hv, ?_⟩
  intro l' hl'
  obtain ⟨⟨hne, hch, hcells, hnd⟩, hhead, hlast⟩ := hl'
  cases l' with
  | nil => exact absurd rfl hne
  | cons x rest =>
    rw [List.head?_cons, Option.some_inj] at hhead
    obtain rfl : v = x := hhead.symm
    cases rest with
    | nil =>
      exfalso
      rw [List.getLast?_singleton, Option.some_inj] at hlast
      rw [← hlast] at hb
      exact hv hb
    | cons y rest' =>
      have hvnotin : v ∉ y :: rest' := (List.nodup_cons.mp hnd).1
      have hcellsS : ∀ p ∈ y :: rest', p ∈ S := by
        intro p hp
        rcases Set.mem_insert_iff.mp (hcells p (List.mem_cons_of_mem _ hp)) with rfl | hpS
        · exact absurd hp hvnotin
        · exact hpS
      have hyu : y = u :=
        huniq y (hcellsS y (List.mem_cons_self _ _)) (List.chain'_cons.mp hch).1
      have hrest : PathBtw S u b (y :: rest') := by
        refine ⟨⟨List.cons_ne_nil _ _, (List.chain'_cons.mp hch).2, hcellsS,
          (List.nodup_cons.mp hnd).2⟩, ?_, ?_⟩
        · rw [List.head?_cons, hyu]
        · rw [← hlast, List.getLast?_cons_cons]
      rw [hmu (y :: rest') hrest]

/-- Extending a tree by a pendant vertex keeps it a tree: the defining
step of the recursive backtracker, which only ever attaches a fresh WALL
cell to the existing carved region through exactly one neighbor. -/
theorem treeOn_insert_pendant {S : Set (ℤ × ℤ)} {u v : ℤ × ℤ}
    (hS : TreeOn S) (hu : u ∈ S) (hv : v ∉ S) (hadj : adjC u v)
    (huniq : ∀ x ∈ S, adjC v x → x = u) : TreeOn (insert v S) := by
  intro a ha b hb
  rcases Set.mem_insert_iff.mp ha with hav | haS
  · rcases Set.mem_insert_iff.mp hb with hbv | hbS
    · rw [hav, hbv]
      exact ⟨[v], pathBtw_singleton (Set.mem_insert _ _), fun l hl => pathBtw_self hl⟩
    · rw [hav]
      exact pendant_existsUnique_from_v hS hu hv hadj huniq b hbS
  · rcases Set.mem_insert_iff.mp hb with hbv | hbS
    · rw [hbv]
      refine existsUnique_of_reverse
        (pendant_existsUnique_from_v hS hu hv hadj huniq a haS) ?_
      intro l
      exact pathBtw_reverse_iff
    · obtain ⟨m, hm, hmu⟩ := hS a haS b hbS
      have hanv : a ≠ v := fun h => hv (h ▸ haS)
      have hbnv : b ≠ v := fun h => hv (h ▸ hbS)
      refine ⟨m, pathBtw_mono (Set.subset_insert _ _) hm, ?_⟩
      intro l' hl'
      exact hmu l' (pathBtw_restrict hl' (pendant_not_mem_path hl' hanv hbnv huniq))

/-! ### Parity geometry of the carve step -/

/-- Both coordinates odd: the vertex cells visited by the backtracker. -/
def oddCell (p : ℤ × ℤ) : Prop := p.1 % 2 = 1 ∧ p.2 % 2 = 1

instance (p : ℤ × ℤ) : Decidable (oddCell p) := by
  unfold oddCell; infer_instance

/-- Exactly one coordinate odd: the carved wall cells between vertices. -/
def midCell (p : ℤ × ℤ) : Prop :=
  (p.1 % 2 = 1 ∧ p.2 % 2 = 0) ∨ (p.1 % 2 = 0 ∧ p.2 % 2 = 1)

instance (p : ℤ × ℤ) : Decidable (midCell p) := by
  unfold midCell; infer_instance

theorem mem_directions_iff {d : ℤ × ℤ} :
    d ∈ directions ↔ d = (0, -2) ∨ d = (2, 0) ∨ d = (0, 2) ∨ d = (-2, 0) := by
  simp [directions]

theorem odd_not_mid {p : ℤ × ℤ} (h : oddCell p) : ¬ midCell p := by
  obtain ⟨px, pz⟩ := p
  unfold oddCell at h
  unfold midCell
  simp only at h ⊢
  omega

theorem not_odd_of_adj_odd {qx qz xx xz : ℤ} (h1 : qx % 2 = 1) (h2 : qz % 2 = 1)
    (hadj : adjC (qx, qz) (xx, xz)) : ¬ (xx % 2 = 1 ∧ xz % 2 = 1) := by
  unfold adjC at hadj
  simp only at hadj
  omega

theorem adj_mid_not_mid {mx mz xx xz : ℤ} (hm : midCell (mx, mz))
    (hadj : adjC (mx, mz) (xx, xz)) : ¬ midCell (xx, xz) := by
  unfold midCell at hm ⊢
  unfold adjC at hadj
  simp only at hm hadj ⊢
  omega

/-- Stepping by a direction from an odd cell: the target is odd, the
intervening wall cell is a mid cell adjacent to both endpoints. -/
theorem carve_geom {px pz dx dz : ℤ} (hpx : px % 2 = 1) (hpz : pz % 2 = 1)
    (hd : (dx, dz) ∈ directions) :
    oddCell (px + dx, pz + dz) ∧ midCell (px + dx / 2, pz + dz / 2) ∧
    adjC (px, pz) (px + dx / 2, pz + dz / 2) ∧
    adjC (px + dx / 2, pz + dz / 2) (px + dx, pz + dz) := by
  rw [mem_directions_iff] at hd
  simp only [Prod.mk.injEq] at hd
  have e1 : (0 : ℤ) / 2 = 0 := by decide
  have e2 : (2 : ℤ) / 2 = 1 := by decide
  have e3 : (-2 : ℤ) / 2 = -1 := by decide
  rcases hd with ⟨rfl, rfl⟩ | ⟨rfl, rfl⟩ | ⟨rfl, rfl⟩ | ⟨rfl, rfl⟩ <;>
    simp only [oddCell, midCell, adjC, e1, e2, e3, true_and, and_true, true_or,
      or_true] <;> omega

/-- The only odd cells adjacent to the intervening wall cell are the two
endpoints of the step. -/
theorem carve_geom₂ {px pz dx dz ax az : ℤ} (hpx : px % 2 = 1) (hpz : pz % 2 = 1)
    (hd : (dx, dz) ∈ directions)
    (hadj : adjC (px + dx / 2, pz + dz / 2) (ax, az)) (hodd : oddCell (ax, az)) :
    (ax = px ∧ az = pz) ∨ (ax = px + dx ∧ az = pz + dz) := by
  rw [mem_directions_iff] at hd
  simp only [Prod.mk.injEq] at hd
  have e1 : (0 : ℤ) / 2 = 0 := by decide
  have e2 : (2 : ℤ) / 2 = 1 := by decide
  have e3 : (-2 : ℤ) / 2 = -1 := by decide
  unfold adjC at hadj
  unfold oddCell at hodd
  simp only at hadj hodd
  rcases hd with ⟨rfl, rfl⟩ | ⟨rfl, rfl⟩ | ⟨rfl, rfl⟩ | ⟨rfl, rfl⟩ <;>
    simp only [e1, e2, e3, true_and, and_true, true_or, or_true] at hadj ⊢ <;>
    omega

/-- The intervening wall cell lies in bounds when both endpoints do. -/
theorem mid_inB {w h px pz dx dz : ℤ} (hd : (dx, dz) ∈ directions)
    (hp : isInBounds w h px pz) (hq : isInBounds w h (px + dx) (pz + dz)) :
    isInBounds w h (px + dx / 2) (pz + dz / 2) := by
  rw [mem_directions_iff] at hd
  simp only [Prod.mk.injEq] at hd
  have hp' : 0 < px ∧ px < w - 1 ∧ 0 < pz ∧ pz < h - 1 := hp
  have hq' : 0 < px + dx ∧ px + dx < w - 1 ∧ 0 < pz + dz ∧ pz + dz < h - 1 := hq
  have e1 : (0 : ℤ) / 2 = 0 := by decide
  have e2 : (2 : ℤ) / 2 = 1 := by decide
  have e3 : (-2 : ℤ) / 2 = -1 := by decide
  refine ⟨?_, ?_, ?_, ?_⟩ <;>
    rcases hd with ⟨rfl, rfl⟩ | ⟨rfl, rfl⟩ | ⟨rfl, rfl⟩ | ⟨rfl, rfl⟩ <;>
    simp only [e1, e2, e3] <;> omega

/-- The in-bounds odd cells: the vertex set the carver can ever visit.
Used only for the fuel accounting. -/
def bOdd (w h : ℤ) : Finset (ℤ × ℤ) :=
  (Finset.Ico 1 (w - 1) ×ˢ Finset.Ico 1 (h - 1)).filter oddCell

theorem mem_bOdd {w h : ℤ} {p : ℤ × ℤ} :
    p ∈ bOdd w h ↔ isInBounds w h p.1 p.2 ∧ oddCell p := by
  rw [bOdd, Finset.mem_filter, Finset.mem_product, Finset.mem_Ico, Finset.mem_Ico]
  constructor
  · rintro ⟨⟨⟨h1, h2⟩, h3, h4⟩, h5⟩
    exact ⟨⟨by omega, by omega, by omega, by omega⟩, h5⟩
  · rintro ⟨⟨h1, h2, h3, h4⟩, h5⟩
    exact ⟨⟨⟨by omega, by omega⟩, by omega, by omega⟩, h5⟩

theorem card_bOdd_le (w h : ℤ) : (bOdd w h).card ≤ w.toNat * h.toNat := by
  calc (bOdd w h).card ≤ (Finset.Ico 1 (w - 1) ×ˢ Finset.Ico (1 : ℤ) (h - 1)).card :=
        Finset.card_filter_le _ _
    _ = (w - 1 - 1).toNat * (h - 1 - 1).toNat := by
        rw [Finset.card_product, Int.card_Ico, Int.card_Ico]
    _ ≤ w.toNat * h.toNat := Nat.mul_le_mul (by omega) (by omega)

/-! ### The carver invariant -/

/-- The state invariant maintained by the carver between calls: the grid
keeps its shape, carved cells are in-bounds odd cells, the non-WALL odd
cells are exactly the carved ones, every non-WALL cell is in-bounds and
odd or mid, and the non-WALL cells form a tree. -/
structure CarveInv (w h : ℤ) (g : Grid) (c : Finset (ℤ × ℤ)) : Prop where
  shape : GridShape w h g
  sub : ∀ p ∈ c, oddCell p ∧ isInBounds w h p.1 p.2
  oddNW : ∀ p : ℤ × ℤ, oddCell p → (p ∈ NW g ↔ p ∈ c)
  cls : ∀ p ∈ NW g, isInBounds w h p.1 p.2 ∧ (oddCell p ∨ midCell p)
  tree : TreeOn (NW g)

/-- Every non-WALL mid cell has both of its odd neighbors carved, except
possibly for neighbors in the excused set `E` (the cell the carver is
just about to enter). -/
def MidsOK (g : Grid) (c : Finset (ℤ × ℤ)) (E : Set (ℤ × ℤ)) : Prop :=
  ∀ n ∈ NW g, midCell n → ∀ a : ℤ × ℤ, adjC n a → oddCell a → a ∈ c ∨ a ∈ E

/-- What a completed carve call guarantees relative to its entry state. -/
def CarveOut (w h : ℤ) (st st' : CarveSt) : Prop :=
  CarveInv w h st'.grid st'.carved ∧ MidsOK st'.grid st'.carved ∅ ∧
  st.carved ⊆ st'.carved

theorem carveF_succ (fuel : ℕ) (σ : ℕ → List (ℤ × ℤ)) (w h : ℤ) (p : ℤ × ℤ)
    (st : CarveSt) :
    carveF (fuel + 1) σ w h p st =
      carveGo fuel σ w h p (σ st.ctr)
        ⟨setCellG st.grid p.1 p.2 Cell.PATH, insert p st.carved, st.ctr + 1⟩ := by
  rw [carveF]

theorem carveGo_nil (fuel : ℕ) (σ : ℕ → List (ℤ × ℤ)) (w h : ℤ) (p : ℤ × ℤ)
    (st : CarveSt) : carveGo fuel σ w h p [] st = st := by
  rw [carveGo]

theorem carveGo_cons (fuel : ℕ) (σ : ℕ → List (ℤ × ℤ)) (w h : ℤ) (p d : ℤ × ℤ)
    (ds : List (ℤ × ℤ)) (st : CarveSt) :
    carveGo fuel σ w h p (d :: ds) st =
      if isInBounds w h (p.1 + d.1) (p.2 + d.2) ∧ (p.1 + d.1, p.2 + d.2) ∉ st.carved then
        carveGo fuel σ w h p ds
          (carveF fuel σ w h (p.1 + d.1, p.2 + d.2)
            ⟨setCellG st.grid (p.1 + d.1 / 2) (p.2 + d.2 / 2) Cell.PATH,
              st.carved, st.ctr⟩)
      else carveGo fuel σ w h p ds st := by
  rw [carveGo]

/-- Carving the entry cell `p` preserves the invariant: `p` is attached
to the existing tree as a pendant vertex (or starts the tree). -/
theorem carve_cell_inv {w h : ℤ} {g : Grid} {c : Finset (ℤ × ℤ)} {p : ℤ × ℤ}
    (hinv : CarveInv w h g c) (hmids : MidsOK g c {p}) (hodd : oddCell p)
    (hib : isInBounds w h p.1 p.2) (hpnc : p ∉ c)
    (hentry : NW g = ∅ ∨ ∃ u ∈ NW g, adjC u p ∧ ∀ x ∈ NW g, adjC p x → x = u) :
    CarveInv w h (setCellG g p.1 p.2 Cell.PATH) (insert p c) ∧
    MidsOK (setCellG g p.1 p.2 Cell.PATH) (insert p c) ∅ := by
  have hb : 0 < p.1 ∧ p.1 < w - 1 ∧ 0 < p.2 ∧ p.2 < h - 1 := hib
  have hNW1 : NW (setCellG g p.1 p.2 Cell.PATH) = insert p (NW g) := by
    rw [NW_setCellG hinv.shape (by omega) (by omega) (by omega) (by omega)
      (by decide : Cell.PATH ≠ Cell.WALL)]
  have hpNW : p ∉ NW g := fun hmem => hpnc ((hinv.oddNW p hodd).mp hmem)
  constructor
  · refine ⟨gridShape_setCellG hinv.shape p.1 p.2 Cell.PATH, ?_, ?_, ?_, ?_⟩
    · intro r hr
      rcases Finset.mem_insert.mp hr with hrp | hr
      · rw [hrp]
        exact ⟨hodd, hib⟩
      · exact hinv.sub r hr
    · intro r hr
      rw [hNW1, Set.mem_insert_iff, Finset.mem_insert]
      constructor
      · rintro (hrp | hrN)
        · exact Or.inl hrp
        · exact Or.inr ((hinv.oddNW r hr).mp hrN)
      · rintro (hrp | hrc)
        · exact Or.inl hrp
        · exact Or.inr ((hinv.oddNW r hr).mpr hrc)
    · intro r hr
      rw [hNW1, Set.mem_insert_iff] at hr
      rcases hr with hrp | hr
      · rw [hrp]
        exact ⟨hib, Or.inl hodd⟩
      · exact hinv.cls r hr
    · rw [hNW1]
      rcases hentry with hemp | ⟨u, huNW, hadjup, huniq⟩
      · rw [hemp]
        have hsing : insert p (∅ : Set (ℤ × ℤ)) = {p} := by
          ext r
          simp [Set.mem_insert_iff]
        rw [hsing]
        exact treeOn_singleton p
      · exact treeOn_insert_pendant hinv.tree huNW hpNW hadjup huniq
  · intro n hn hnmid a hadj haodd
    rw [hNW1, Set.mem_insert_iff] at hn
    rcases hn with hnp | hn
    · exfalso
      apply odd_not_mid hodd
      rw [← hnp]
      exact hnmid
    · rcases hmids n hn hnmid a hadj haodd with hac | hap
      · exact Or.inl (Finset.mem_insert_of_mem hac)
      · rw [Set.mem_singleton_iff] at hap
        rw [hap]
        exact Or.inl (Finset.mem_insert_self p c)

/-- Carving the wall cell toward a fresh neighbor `q` preserves the
invariant: the wall cell is attached as a pendant on `p`, and `q` becomes
the one temporarily excused odd neighbor.  The conclusions are exactly
the preconditions of the recursive `carve` call on `q`. -/
theorem carve_mid_inv {w h : ℤ} {g : Grid} {c : Finset (ℤ × ℤ)} {p d : ℤ × ℤ}
    (hinv : CarveInv w h g c) (hmids : MidsOK g c ∅) (hpc : p ∈ c)
    (hd : d ∈ directions)
    (hqib : isInBounds w h (p.1 + d.1) (p.2 + d.2))
    (hqnc : (p.1 + d.1, p.2 + d.2) ∉ c) :
    CarveInv w h (setCellG g (p.1 + d.1 / 2) (p.2 + d.2 / 2) Cell.PATH) c ∧
    MidsOK (setCellG g (p.1 + d.1 / 2) (p.2 + d.2 / 2) Cell.PATH) c
      {(p.1 + d.1, p.2 + d.2)} ∧
    oddCell (p.1 + d.1, p.2 + d.2) ∧
    (NW (setCellG g (p.1 + d.1 / 2) (p.2 + d.2 / 2) Cell.PATH) = ∅ ∨
      ∃ u ∈ NW (setCellG g (p.1 + d.1 / 2) (p.2 + d.2 / 2) Cell.PATH),
        adjC u (p.1 + d.1, p.2 + d.2) ∧
        ∀ x ∈ NW (setCellG g (p.1 + d.1 / 2) (p.2 + d.2 / 2) Cell.PATH),
          adjC (p.1 + d.1, p.2 + d.2) x → x = u) := by
  obtain ⟨hpodd, hpib⟩ := hinv.sub p hpc
  obtain ⟨hqodd, hmmid, hadjpm, hadjmq⟩ := carve_geom hpodd.1 hpodd.2 hd
  have hbm : isInBounds w h (p.1 + d.1 / 2) (p.2 + d.2 / 2) := mid_inB hd hpib hqib
  have hbm' : 0 < p.1 + d.1 / 2 ∧ p.1 + d.1 / 2 < w - 1 ∧
      0 < p.2 + d.2 / 2 ∧ p.2 + d.2 / 2 < h - 1 := hbm
  have hmnotNW : (p.1 + d.1 / 2, p.2 + d.2 / 2) ∉ NW g := by
    intro hmem
    rcases hmids _ hmem hmmid _ hadjmq hqodd with hqc | hq0
    · exact hqnc hqc
    · exact absurd hq0 (Set.not_mem_empty _)
  have hNW1 : NW (setCellG g (p.1 + d.1 / 2) (p.2 + d.2 / 2) Cell.PATH) =
      insert (p.1 + d.1 / 2, p.2 + d.2 / 2) (NW g) := by
    rw [NW_setCellG hinv.shape (by omega) (by omega) (by omega) (by omega)
      (by decide : Cell.PATH ≠ Cell.WALL)]
  have hpNW : p ∈ NW g := (hinv.oddNW p hpodd).mpr hpc
  refine ⟨?_, ?_, hqodd, ?_⟩
  · refine ⟨gridShape_setCellG hinv.shape _ _ _, hinv.sub, ?_, ?_, ?_⟩
    · intro r hr
      rw [hNW1, Set.mem_insert_iff]
      constructor
      · rintro (hrm | hrN)
        · exfalso
          apply odd_not_mid hr
          rw [hrm]
          exact hmmid
        · exact (hinv.oddNW r hr).mp hrN
      · intro hrc
        exact Or.inr ((hinv.oddNW r hr).mpr hrc)
    · intro r hr
      rw [hNW1, Set.mem_insert_iff] at hr
      rcases hr with hrm | hr
      · rw [hrm]
        exact ⟨hbm, Or.inr hmmid⟩
      · exact hinv.cls r hr
    · rw [hNW1]
      refine treeOn_insert_pendant hinv.tree hpNW hmnotNW hadjpm ?_
      intro x hx hadjmx
      rcases (hinv.cls x hx).2 with hxodd | hxmid
      · rcases carve_geom₂ hpodd.1 hpodd.2 hd hadjmx hxodd with h1 | h2
        · exact (Prod.ext h1.1 h1.2).symm.symm
        · exfalso
          apply hqnc
          have hxq : x = (p.1 + d.1, p.2 + d.2) := Prod.ext h2.1 h2.2
          rw [← hxq]
          exact (hinv.oddNW x hxodd).mp hx
      · exact absurd hxmid (adj_mid_not_mid hmmid hadjmx)
  · intro n hn hnmid a hadj haodd
    rw [hNW1, Set.mem_insert_iff] at hn
    rcases hn with hnm | hn
    · have hadj' : adjC (p.1 + d.1 / 2, p.2 + d.2 / 2) a := by
        rw [← hnm]
        exact hadj
      rcases carve_geom₂ hpodd.1 hpodd.2 hd hadj' haodd with h1 | h2
      · refine Or.inl ?_
        rw [show a = p from Prod.ext h1.1 h1.2]
        exact hpc
      · refine Or.inr ?_
        rw [Set.mem_singleton_iff]
        exact Prod.ext h2.1 h2.2
    · rcases hmids n hn hnmid a hadj haodd with hac | ha0
      · exact Or.inl hac
      · exact absurd ha0 (Set.not_mem_empty a)
  · refine Or.inr ⟨(p.1 + d.1 / 2, p.2 + d.2 / 2), ?_, hadjmq, ?_⟩
    · rw [hNW1]
      exact Set.mem_insert _ _
    · intro x hx hadjqx
      rw [hNW1, Set.mem_insert_iff] at hx
      rcases hx with hxm | hx
      · exact hxm
      · exfalso
        have hxnotodd : ¬ oddCell x := not_odd_of_adj_odd hqodd.1 hqodd.2 hadjqx
        rcases (hinv.cls x hx).2 with hxodd | hxmid
        · exact hxnotodd hxodd
        · rcases hmids x hx hxmid _ (adjC_symm hadjqx) hqodd with hqc | hq0
          · exact hqnc hqc
          · exact absurd hq0 (Set.not_mem_empty _)

/-- The combined correctness of `carve` and its direction loop, by
induction on the fuel.  The fuel hypothesis `|bOdd \ carved| < fuel` is
maintained because every `carve` call permanently carves a fresh
in-bounds odd cell, so the fuel can never run out mid-recursion. -/
theorem carve_spec (fuel : ℕ) :
    (∀ (σ : ℕ → List (ℤ × ℤ)) (w h : ℤ) (p : ℤ × ℤ) (st : CarveSt),
      (∀ n, (σ n).Perm directions) →
      CarveInv w h st.grid st.carved → MidsOK st.grid st.carved {p} →
      oddCell p → isInBounds w h p.1 p.2 → p ∉ st.carved →
      (NW st.grid = ∅ ∨
        ∃ u ∈ NW st.grid, adjC u p ∧ ∀ x ∈ NW st.grid, adjC p x → x = u) →
      (bOdd w h \ st.carved).card < fuel →
      CarveOut w h st (carveF fuel σ w h p st) ∧
        p ∈ (carveF fuel σ w h p st).carved) ∧
    (∀ (σ : ℕ → List (ℤ × ℤ)) (w h : ℤ) (p : ℤ × ℤ) (ds : List (ℤ × ℤ))
        (st : CarveSt),
      (∀ n, (σ n).Perm directions) → (∀ d ∈ ds, d ∈ directions) →
      CarveInv w h st.grid st.carved → MidsOK st.grid st.carved ∅ →
      p ∈ st.carved → (bOdd w h \ st.carved).card < fuel →
      CarveOut w h st (carveGo fuel σ w h p ds st)) := by
  induction fuel with
  | zero =>
    constructor
    · intro σ w h p st hσ hinv hmids hodd hib hpnc hentry hcard
      exact absurd hcard (Nat.not_lt_zero _)
    · intro σ w h p ds st hσ hds hinv hmids hpc hcard
      exact absurd hcard (Nat.not_lt_zero _)
  | succ fuel ih =>
    have hF : ∀ (σ : ℕ → List (ℤ × ℤ)) (w h : ℤ) (p : ℤ × ℤ) (st : CarveSt),
        (∀ n, (σ n).Perm directions) →
        CarveInv w h st.grid st.carved → MidsOK st.grid st.carved {p} →
        oddCell p → isInBounds w h p.1 p.2 → p ∉ st.carved →
        (NW st.grid = ∅ ∨
          ∃ u ∈ NW st.grid, adjC u p ∧ ∀ x ∈ NW st.grid, adjC p x → x = u) →
        (bOdd w h \ st.carved).card < fuel + 1 →
        CarveOut w h st (carveF (fuel + 1) σ w h p st) ∧
          p ∈ (carveF (fuel + 1) σ w h p st).carved := by
      intro σ w h p st hσ hinv hmids hodd hib hpnc hentry hcard
      obtain ⟨hinv1, hmids1⟩ := carve_cell_inv hinv hmids hodd hib hpnc hentry
      have hpB : p ∈ bOdd w h \ st.carved :=
        Finset.mem_sdiff.mpr ⟨mem_bOdd.mpr ⟨hib, hodd⟩, hpnc⟩
      have hcard1 : (bOdd w h \ insert p st.carved).card < fuel := by
        have hsd : bOdd w h \ insert p st.carved =
            (bOdd w h \ st.carved).erase p := by
          ext r
          simp only [Finset.mem_sdiff, Finset.mem_erase, Finset.mem_insert]
          tauto
        rw [hsd, Finset.card_erase_of_mem hpB]
        have h2 : 0 < (bOdd w h \ st.carved).card := Finset.card_pos.mpr ⟨p, hpB⟩
        omega
      have hout := ih.2 σ w h p (σ st.ctr)
        ⟨setCellG st.grid p.1 p.2 Cell.PATH, insert p st.carved, st.ctr + 1⟩
        hσ (fun d hd => ((hσ st.ctr).mem_iff).mp hd) hinv1 hmids1
        (Finset.mem_insert_self p st.carved) hcard1
      rw [carveF_succ]
      refine ⟨⟨hout.1, hout.2.1, ?_⟩, ?_⟩
      · exact (Finset.subset_insert p st.carved).trans hout.2.2
      · exact hout.2.2 (Finset.mem_insert_self p st.carved)
    refine ⟨hF, ?_⟩
    intro σ w h p ds st hσ
    induction ds generalizing st with
    | nil =>
      intro hds hinv hmids hpc hcard
      rw [carveGo_nil]
      exact ⟨hinv, hmids, Finset.Subset.refl _⟩
    | cons d ds ihds =>
      intro hds hinv hmids hpc hcard
      rw [carveGo_cons]
      by_cases hg : isInBounds w h (p.1 + d.1) (p.2 + d.2) ∧
          (p.1 + d.1, p.2 + d.2) ∉ st.carved
      · rw [if_pos hg]
        have hd : d ∈ directions := hds d (List.mem_cons_self d ds)
        obtain ⟨hinvW, hmidsW, hqodd, hentryW⟩ :=
          carve_mid_inv hinv hmids hpc hd hg.1 hg.2
        obtain ⟨⟨hinv2, hmids2, hsub2⟩, hq2⟩ := hF σ w h (p.1 + d.1, p.2 + d.2)
          ⟨setCellG st.grid (p.1 + d.1 / 2) (p.2 + d.2 / 2) Cell.PATH,
            st.carved, st.ctr⟩
          hσ hinvW hmidsW hqodd hg.1 hg.2 hentryW hcard
        have hcard2 : (bOdd w h \
            (carveF (fuel + 1) σ w h (p.1 + d.1, p.2 + d.2)
              ⟨setCellG st.grid (p.1 + d.1 / 2) (p.2 + d.2 / 2) Cell.PATH,
                st.carved, st.ctr⟩).carved).card < fuel + 1 := by
          refine lt_of_le_of_lt (Finset.card_le_card ?_) hcard
          intro r hr
          rw [Finset.mem_sdiff] at hr ⊢
          exact ⟨hr.1, fun hrc => hr.2 (hsub2 hrc)⟩
        have hrest := ihds (carveF (fuel + 1) σ w h (p.1 + d.1, p.2 + d.2)
            ⟨setCellG st.grid (p.1 + d.1 / 2) (p.2 + d.2 / 2) Cell.PATH,
              st.carved, st.ctr⟩)
          (fun d' hd' => hds d' (List.mem_cons_of_mem d hd'))
          hinv2 hmids2 (hsub2 hpc) hcard2
        exact ⟨hrest.1, hrest.2.1, hsub2.trans hrest.2.2⟩
      · rw [if_neg hg]
        exact ihds st (fun d' hd' => hds d' (List.mem_cons_of_mem d hd'))
          hinv hmids hpc hcard

/-- The END-searching walk lands on a non-WALL cell inside its start
rectangle, provided the fuel covers the walk length and `(1,1)` — the
walk's final resort — is not a WALL. -/
theorem endSearch_spec : ∀ (fuel : ℕ) (g : Grid) (ex ez : ℤ),
    1 ≤ ex → 1 ≤ ez → cellAt g 1 1 ≠ some Cell.WALL →
    (ex - 1).toNat + (ez - 1).toNat < fuel →
    cellAt g (endSearch fuel g ex ez).1 (endSearch fuel g ex ez).2 ≠ some Cell.WALL ∧
    1 ≤ (endSearch fuel g ex ez).1 ∧ (endSearch fuel g ex ez).1 ≤ ex ∧
    1 ≤ (endSearch fuel g ex ez).2 ∧ (endSearch fuel g ex ez).2 ≤ ez := by
  intro fuel
  induction fuel with
  | zero =>
    intro g ex ez h1 h2 h3 hf
    exact absurd hf (by omega)
  | succ fuel ih =>
    intro g ex ez h1 h2 h3 hf
    by_cases hw : cellAt g ex ez = some Cell.WALL
    · by_cases hx : 1 < ex
      · rw [endSearch, if_pos hw, if_pos hx]
        obtain ⟨ha, hb, hc, hd, he⟩ := ih g (ex - 1) ez (by omega) h2 h3 (by omega)
        exact ⟨ha, hb, by omega, hd, he⟩
      · by_cases hz : 1 < ez
        · rw [endSearch, if_pos hw, if_neg hx, if_pos hz]
          obtain ⟨ha, hb, hc, hd, he⟩ := ih g ex (ez - 1) h1 (by omega) h3 (by omega)
          exact ⟨ha, hb, hc, hd, by omega⟩
        · exfalso
          apply h3
          have hex : ex = 1 := by omega
          have hez : ez = 1 := by omega
          rw [hex, hez] at hw
          exact hw
    · rw [endSearch, if_neg hw]
      exact ⟨hw, h1, le_refl ex, h2, le_refl ez⟩

/-- **C1**: for every pair of odd dimensions `w, h ≥ 5` and every shuffle
oracle (each call returning some permutation of the four directions),
`generateMaze w h` reports the start cell `(1,1)`, that cell is non-WALL,
every non-WALL cell of the returned grid is connected to `(1,1)` by a
4-connected path through non-WALL cells, and the non-WALL cells form a
spanning tree: exactly one simple path exists between any two of them. -/
theorem generateMaze_perfect (σ : ℕ → List (ℤ × ℤ)) (w h : ℤ)
    (hσ : ∀ n, (σ n).Perm directions)
    (hw : 5 ≤ w) (hh : 5 ≤ h) (hwodd : w % 2 = 1) (hhodd : h % 2 = 1) :
    (generateMaze σ w h).2.1 = (1, 1) ∧
    (1, 1) ∈ NW (generateMaze σ w h).1 ∧
    (∀ b ∈ NW (generateMaze σ w h).1,
      ∃ l, PathBtw (NW (generateMaze σ w h).1) (1, 1) b l) ∧
    TreeOn (NW (generateMaze σ w h).1) := by
  have hodd1 : oddCell ((1 : ℤ), (1 : ℤ)) := by decide
  have hib1 : isInBounds w h 1 1 := ⟨by omega, by omega, by omega, by omega⟩
  have hinv0 : CarveInv w h
      (List.replicate h.toNat (List.replicate w.toNat Cell.WALL)) ∅ := by
    refine ⟨gridShape_replicate w h, ?_, ?_, ?_, ?_⟩
    · intro r hr
      exact absurd hr (Finset.not_mem_empty r)
    · intro r hr
      rw [NW_replicate]
      constructor
      · intro hmem
        exact absurd hmem (Set.not_mem_empty r)
      · intro hmem
        exact absurd hmem (Finset.not_mem_empty r)
    · intro r hr
      rw [NW_replicate] at hr
      exact absurd hr (Set.not_mem_empty r)
    · rw [NW_replicate]
      exact treeOn_empty
  have hmids0 : MidsOK (List.replicate h.toNat (List.replicate w.toNat Cell.WALL))
      ∅ {((1 : ℤ), (1 : ℤ))} := by
    intro n hn
    rw [NW_replicate] at hn
    exact absurd hn (Set.not_mem_empty n)
  have hcard0 : (bOdd w h \ (∅ : Finset (ℤ × ℤ))).card < w.toNat * h.toNat + 1 := by
    rw [Finset.sdiff_empty]
    exact Nat.lt_succ_of_le (card_bOdd_le w h)
  obtain ⟨⟨hinvF, hmidsF, hsubF⟩, hpF⟩ :=
    (carve_spec (w.toNat * h.toNat + 1)).1 σ w h (1, 1)
      ⟨List.replicate h.toNat (List.replicate w.toNat Cell.WALL), ∅, 0⟩
      hσ hinv0 hmids0 hodd1 hib1 (Finset.not_mem_empty _)
      (Or.inl (NW_replicate w h)) hcard0
  obtain ⟨stF, hstF⟩ : ∃ stF, carveF (w.toNat * h.toNat + 1) σ w h (1, 1)
      ⟨List.replicate h.toNat (List.replicate w.toNat Cell.WALL), ∅, 0⟩ = stF :=
    ⟨_, rfl⟩
  rw [hstF] at hinvF hmidsF hpF
  have h11NW : ((1 : ℤ), (1 : ℤ)) ∈ NW stF.grid := (hinvF.oddNW (1, 1) hodd1).mpr hpF
  have hshape1 : GridShape w h (setCellG stF.grid 1 1 Cell.START) :=
    gridShape_setCellG hinvF.shape 1 1 Cell.START
  have hc11 : cellAt (setCellG stF.grid 1 1 Cell.START) 1 1 = some Cell.START := by
    rw [cellAt_setCellG hinvF.shape (by omega) (by omega) (by omega) (by omega)
      Cell.START 1 1, if_pos ⟨rfl, rfl⟩]
  have hne11 : cellAt (setCellG stF.grid 1 1 Cell.START) 1 1 ≠ some Cell.WALL := by
    rw [hc11]
    decide
  have hNWg1 : NW (setCellG stF.grid 1 1 Cell.START) = NW stF.grid := by
    rw [NW_setCellG hinvF.shape (by omega) (by omega) (by omega) (by omega)
      (by decide : Cell.START ≠ Cell.WALL)]
    exact Set.insert_eq_self.mpr h11NW
  obtain ⟨hesW, hes1, hes2, hes3, hes4⟩ :=
    endSearch_spec (w + h).toNat (setCellG stF.grid 1 1 Cell.START) (w - 2) (h - 2)
      (by omega) (by omega) hne11 (by omega)
  obtain ⟨e, he⟩ : ∃ e, endSearch (w + h).toNat
      (setCellG stF.grid 1 1 Cell.START) (w - 2) (h - 2) = e := ⟨_, rfl⟩
  rw [he] at hesW hes1 hes2 hes3 hes4
  obtain ⟨ce, hce⟩ := cellAt_some_of_shape hshape1 (show (0 : ℤ) ≤ e.1 by omega)
    (show e.1 < w by omega) (show (0 : ℤ) ≤ e.2 by omega) (show e.2 < h by omega)
  have hceW : ce ≠ Cell.WALL := by
    intro hEq
    apply hesW
    rw [hce, hEq]
  have heNW : e ∈ NW (setCellG stF.grid 1 1 Cell.START) := ⟨ce, hce, hceW⟩
  have hNWg2 : NW (setCellG (setCellG stF.grid 1 1 Cell.START) e.1 e.2 Cell.END) =
      NW (setCellG stF.grid 1 1 Cell.START) := by
    rw [NW_setCellG hshape1 (by omega) (by omega) (by omega) (by omega)
      (by decide : Cell.END ≠ Cell.WALL)]
    exact Set.insert_eq_self.mpr heNW
  have hgrid : (generateMaze σ w h).1 =
      setCellG (setCellG stF.grid 1 1 Cell.START) e.1 e.2 Cell.END := by
    rw [← he, ← hstF]
    rfl
  refine ⟨rfl, ?_, ?_, ?_⟩
  · rw [hgrid, hNWg2, hNWg1]
    exact h11NW
  · intro b hb
    rw [hgrid, hNWg2, hNWg1] at hb ⊢
    obtain ⟨l, hl, _⟩ := hinvF.tree (1, 1) h11NW b hb
    exact ⟨l, hl⟩
  · rw [hgrid, hNWg2, hNWg1]
    exact hinvF.tree

/-- Concrete instance of `generateMaze_perfect`: the 5×5 maze generated
with the identity shuffle oracle. -/
theorem generateMaze_perfect_witness :
    (∀ n : ℕ, ((fun _ : ℕ => directions) n).Perm directions) ∧
    (5 : ℤ) % 2 = 1 ∧
    ((generateMaze (fun _ : ℕ => directions) 5 5).2.1 = (1, 1) ∧
      (1, 1) ∈ NW (generateMaze (fun _ : ℕ => directions) 5 5).1 ∧
      (∀ b ∈ NW (generateMaze (fun _ : ℕ => directions) 5 5).1,
        ∃ l, PathBtw (NW (generateMaze (fun _ : ℕ => directions) 5 5).1) (1, 1) b l) ∧
      TreeOn (NW (generateMaze (fun _ : ℕ => directions) 5 5).1)) :=
  ⟨fun _ => List.Perm.refl directions, by decide,
    generateMaze_perfect (fun _ : ℕ => directions) 5 5
      (fun _ => List.Perm.refl directions) (by decide) (by decide) (by decide)
      (by decide)⟩

end NeoMaze
